import Mathlib

/-!
Verification of the playlist-comparison core of `cdj_compare_playlists.py`
(rekordbox-tools).  The development shallowly embeds the normalizer, the
three-pass matcher, the hot-cue position comparator, the reorder loop with its
in-memory position map, and the hot-cue clone/staging logic, and proves the
specification's testable properties about them.
-/

namespace CdjCompare

open List

/-! ## Normalizer (`_norm`, lines 27-31) -/

/-- Modelled from the spec: "Applies Unicode compatibility decomposition,
strips combining marks (ASCII-fold)".  The Python source delegates this step to
the external `unicodedata` module (`normalize("NFKD", s)` followed by
`encode("ascii","ignore")`); we model the composite on the characters this
development exercises: ASCII characters pass through, Latin letters with
diacritics decompose to their base letter, and non-ASCII characters whose
compatibility decomposition contains no ASCII characters are dropped. -/
def asciiFoldChar (c : Char) : List Char :=
  if c.toNat < 128 then [c]
  else if c = 'é' then ['e']
  else if c = 'É' then ['E']
  else []

/-- One character of the class `[0-9a-z]` under `re.IGNORECASE`
(the `_NON_ALNUM_RE` character class). -/
def isAlnumChar (c : Char) : Bool :=
  (48 ≤ c.toNat && c.toNat ≤ 57) || (97 ≤ c.toNat && c.toNat ≤ 122) ||
    (65 ≤ c.toNat && c.toNat ≤ 90)

/-- `_NON_ALNUM_RE.sub(" ", s)`, written as a left-to-right scan: the boolean
records whether we are inside a run of non-alphanumeric characters, so that
every maximal such run is replaced by a single space. -/
def subNonAlnumAux : Bool → List Char → List Char
  | _, [] => []
  | inRun, c :: cs =>
    if isAlnumChar c then c :: subNonAlnumAux false cs
    else if inRun then subNonAlnumAux true cs
    else ' ' :: subNonAlnumAux true cs

/-- `_NON_ALNUM_RE.sub(" ", s)`: every maximal run of non-alphanumeric
characters is replaced by a single space. -/
def subNonAlnum (l : List Char) : List Char :=
  subNonAlnumAux false l

/-- `str.split()` restricted to the space character (the only whitespace that
can occur after `subNonAlnum`): split on spaces, dropping empty pieces is done
by the caller. -/
def splitSp (l : List Char) : List (List Char) :=
  l.foldr
    (fun c acc =>
      match acc with
      | [] => if c = ' ' then [[]] else [[c]]
      | w :: rest => if c = ' ' then [] :: w :: rest else (c :: w) :: rest)
    []

/-- `" ".join(words)`. -/
def joinWords : List (List Char) → List Char
  | [] => []
  | [w] => w
  | w :: ws => w ++ ' ' :: joinWords ws

/-- `_norm` (lines 27-31): NFKD + ASCII-fold, lower-case, collapse
non-alphanumeric runs to single spaces, then `" ".join(s.split())`. -/
def norm (s : String) : String :=
  if s = "" then ""
  else
    let folded := (s.data.flatMap asciiFoldChar).map Char.toLower
    let subbed := subNonAlnum folded
    ⟨joinWords ((splitSp subbed).filter (fun w => w ≠ []))⟩

/-! ## Hot-cue position comparator (`_match_hot_cue_positions`, lines 110-130) -/

/-- State of the outer loop of `_match_hot_cue_positions`: the per-index
`used` array over `cand_ms`, the matched pairs, and the unmatched base
values accumulated so far. -/
structure HCState where
  used : List Bool
  pairs : List (Int × Int)
  unmatched_base : List Int
deriving Repr, DecidableEq

/-- The inner loop of `_match_hot_cue_positions` (lines 115-123): scan
`enumerate(cand_ms)`, skip used indices, and keep the index of the currently
best (strictly smaller) absolute difference that is within tolerance.  The
accumulator packs `found_j` and `best_abs_diff` (which are `None`/set
together in the source). -/
def findBestCand (cand_ms : List Int) (used : List Bool) (b tol : Int) :
    Option (Nat × Int) :=
  cand_ms.enum.foldl
    (fun acc jc =>
      if used.getD jc.1 false then acc
      else
        let diff := |jc.2 - b|
        if decide (diff ≤ tol) &&
            (match acc with | none => true | some best => decide (diff < best.2)) then
          some (jc.1, diff)
        else acc)
    none

/-- One iteration of the outer loop of `_match_hot_cue_positions`
(lines 114-128) for a single base value `b`. -/
def hcStep (cand_ms : List Int) (tol : Int) (st : HCState) (b : Int) : HCState :=
  match findBestCand cand_ms st.used b tol with
  | none =>
      { st with unmatched_base := st.unmatched_base ++ [b] }
  | some jd =>
      { used := st.used.set jd.1 true
        pairs := st.pairs ++ [(b, cand_ms.getD jd.1 0)]
        unmatched_base := st.unmatched_base }

/-- `_match_hot_cue_positions(base_ms, cand_ms, tol_ms)` (lines 110-130). -/
def matchHotCuePositions (base_ms cand_ms : List Int) (tol_ms : Int) :
    List (Int × Int) × List Int × List Int :=
  let st := base_ms.foldl (hcStep cand_ms tol_ms)
    ⟨List.replicate cand_ms.length false, [], []⟩
  let unmatched_cand := cand_ms.enum.filterMap
    (fun jc => if st.used.getD jc.1 false then none else some jc.2)
  (st.pairs, st.unmatched_base, unmatched_cand)

/-- Modelled from the spec: the reference selection rule of §4.4 — among the
not-yet-consumed candidate entries whose absolute difference from `b` is at
most the tolerance, select the one of minimal absolute difference, ties broken
toward the leftmost entry of `cand_ms`. -/
def specSelectCand (cand_ms : List Int) (used : List Bool) (b tol : Int) :
    Option (Nat × Int) :=
  let qual := cand_ms.enum.filter
    (fun jc => !(used.getD jc.1 false) && decide (|jc.2 - b| ≤ tol))
  match qual with
  | [] => none
  | q :: qs =>
      let m := (qs.map (fun jc => |jc.2 - b|)).foldl min |q.2 - b|
      (qual.find? (fun jc => decide (|jc.2 - b| = m))).map
        (fun jc => (jc.1, |jc.2 - b|))

/-- Modelled from the spec: §4.4's greedy nearest-neighbor assignment, i.e.
the outer loop of `_match_hot_cue_positions` driven by the reference
selection rule `specSelectCand`. -/
def specHcStep (cand_ms : List Int) (tol : Int) (st : HCState) (b : Int) : HCState :=
  match specSelectCand cand_ms st.used b tol with
  | none =>
      { st with unmatched_base := st.unmatched_base ++ [b] }
  | some jd =>
      { used := st.used.set jd.1 true
        pairs := st.pairs ++ [(b, cand_ms.getD jd.1 0)]
        unmatched_base := st.unmatched_base }

/-- Modelled from the spec: §4.4's `compareMarkers` contract, assembled from
`specHcStep` exactly as `matchHotCuePositions` is assembled from `hcStep`. -/
def specCompareMarkers (base_ms cand_ms : List Int) (tol_ms : Int) :
    List (Int × Int) × List Int × List Int :=
  let st := base_ms.foldl (specHcStep cand_ms tol_ms)
    ⟨List.replicate cand_ms.length false, [], []⟩
  let unmatched_cand := cand_ms.enum.filterMap
    (fun jc => if st.used.getD jc.1 false then none else some jc.2)
  (st.pairs, st.unmatched_base, unmatched_cand)

/-! ### Agreement of the inner scan with the reference selection rule -/

/-- The inner scan of `findBestCand`, generalized to an arbitrary list of
`(index, value)` entries. -/
def selFold (used : List Bool) (b tol : Int) (es : List (Nat × Int)) :
    Option (Nat × Int) :=
  es.foldl
    (fun acc jc =>
      if used.getD jc.1 false then acc
      else
        let diff := |jc.2 - b|
        if decide (diff ≤ tol) &&
            (match acc with | none => true | some best => decide (diff < best.2)) then
          some (jc.1, diff)
        else acc)
    none

/-- The reference selection rule of `specSelectCand`, generalized to an
arbitrary list of `(index, value)` entries. -/
def selSpec (used : List Bool) (b tol : Int) (es : List (Nat × Int)) :
    Option (Nat × Int) :=
  let qual := es.filter
    (fun jc => !(used.getD jc.1 false) && decide (|jc.2 - b| ≤ tol))
  match qual with
  | [] => none
  | q :: qs =>
      let m := (qs.map (fun jc => |jc.2 - b|)).foldl min |q.2 - b|
      (qual.find? (fun jc => decide (|jc.2 - b| = m))).map
        (fun jc => (jc.1, |jc.2 - b|))

theorem findBestCand_eq_selFold (cand_ms : List Int) (used : List Bool) (b tol : Int) :
    findBestCand cand_ms used b tol = selFold used b tol cand_ms.enum := rfl

theorem specSelectCand_eq_selSpec (cand_ms : List Int) (used : List Bool) (b tol : Int) :
    specSelectCand cand_ms used b tol = selSpec used b tol cand_ms.enum := rfl

theorem foldl_min_le (l : List Int) (a : Int) :
    l.foldl min a ≤ a ∧ ∀ x ∈ l, l.foldl min a ≤ x := by
  induction l generalizing a with
  | nil => simp
  | cons y ys ih =>
    rcases ih (min a y) with ⟨h1, h2⟩
    refine ⟨le_trans h1 (min_le_left _ _), ?_⟩
    intro x hx
    rcases List.mem_cons.mp hx with rfl | hx
    · exact le_trans h1 (min_le_right _ _)
    · exact h2 x hx

theorem foldl_min_mem (l : List Int) (a : Int) :
    l.foldl min a = a ∨ l.foldl min a ∈ l := by
  induction l generalizing a with
  | nil => simp
  | cons y ys ih =>
    rcases ih (min a y) with h | h
    · rcases le_total a y with hay | hya
      · left; simpa [min_eq_left hay] using h
      · right; rw [List.foldl_cons, h, min_eq_right hya]; exact List.mem_cons_self _ _
    · right; exact List.mem_cons_of_mem _ h

/-- `m` as computed by `selSpec` on a nonempty qualifying list is attained. -/
theorem foldl_min_attained (q : Int) (qs : List Int) :
    qs.foldl min q = q ∨ qs.foldl min q ∈ qs :=
  foldl_min_mem qs q

/-- The scan of `findBestCand` computes exactly the reference selection of
`specSelectCand`: leftmost qualifying entry of minimal absolute difference. -/
theorem selFold_eq_selSpec (used : List Bool) (b tol : Int) (es : List (Nat × Int)) :
    selFold used b tol es = selSpec used b tol es := by
  induction es using List.reverseRecOn with
  | nil => rfl
  | append_singleton es x ih =>
    have hfold : selFold used b tol (es ++ [x]) =
        (if used.getD x.1 false then selFold used b tol es
         else if decide (|x.2 - b| ≤ tol) &&
             (match selFold used b tol es with
               | none => true | some best => decide (|x.2 - b| < best.2)) then
           some (x.1, |x.2 - b|)
         else selFold used b tol es) := by
      simp only [selFold, List.foldl_append, List.foldl_cons, List.foldl_nil]
    by_cases hu : used.getD x.1 false
    · -- `x` is used: both sides ignore it
      have hu' : used[x.1]?.getD false = true := by simpa [List.getD] using hu
      rw [hfold, if_pos hu, ih]
      simp only [selSpec, List.filter_append]
      have : List.filter (fun jc => !(used.getD jc.1 false) && decide (|jc.2 - b| ≤ tol)) [x] = [] := by
        simp [List.filter, List.getD, hu']
      rw [this, List.append_nil]
    · have hu' : used[x.1]?.getD false = false := by
        have : used.getD x.1 false = false := by
          revert hu; cases used.getD x.1 false <;> simp
        simpa [List.getD] using this
      by_cases htol : |x.2 - b| ≤ tol
      · -- `x` qualifies
        have hq : List.filter (fun jc => !(used.getD jc.1 false) && decide (|jc.2 - b| ≤ tol)) [x] = [x] := by
          simp [List.filter, List.getD, hu', htol]
        rcases hqes : List.filter
            (fun jc => !(used.getD jc.1 false) && decide (|jc.2 - b| ≤ tol)) es with _ | ⟨q, qs⟩
        · -- no previous qualifier: spec picks `x`; scan upgrades from `none`
          have hspec_es : selSpec used b tol es = none := by
            simp only [selSpec]
            rw [hqes]
          rw [hfold, if_neg hu, ih, hspec_es]
          simp only [selSpec, List.filter_append]
          rw [hqes, hq]
          simp [htol]
        · -- previous qualifiers exist, with minimum `m`
          set m := (qs.map (fun jc => |jc.2 - b|)).foldl min |q.2 - b| with hm
          have hmin_le : ∀ y ∈ q :: qs, m ≤ |y.2 - b| := by
            intro y hy
            rcases List.mem_cons.mp hy with rfl | hy
            · exact (foldl_min_le _ _).1
            · exact (foldl_min_le _ _).2 _ (List.mem_map_of_mem (fun jc => |jc.2 - b|) hy)
          have hmin_att : ∃ y ∈ q :: qs, |y.2 - b| = m := by
            rcases foldl_min_attained |q.2 - b| (qs.map (fun jc => |jc.2 - b|)) with h | h
            · exact ⟨q, List.mem_cons_self _ _, h.symm⟩
            · rcases List.mem_map.mp h with ⟨y, hy, hyv⟩
              exact ⟨y, List.mem_cons_of_mem _ hy, hyv⟩
          have hfind : ∃ j₁, (List.find? (fun jc => decide (|jc.2 - b| = m)) (q :: qs)) = some j₁ := by
            rcases hmin_att with ⟨y, hy, hyv⟩
            have : (List.find? (fun jc => decide (|jc.2 - b| = m)) (q :: qs)).isSome = true :=
              List.find?_isSome.mpr ⟨y, hy, by simpa using hyv⟩
            exact Option.isSome_iff_exists.mp this
          rcases hfind with ⟨j₁, hj₁⟩
          have hj₁m : |j₁.2 - b| = m := by simpa using List.find?_some hj₁
          have hspec_es : selSpec used b tol es = some (j₁.1, m) := by
            simp only [selSpec]
            rw [hqes]
            simp only [← hm, hj₁]
            simp [hj₁m]
          -- snoc on the spec side
          have hqual' : List.filter
              (fun jc => !(used.getD jc.1 false) && decide (|jc.2 - b| ≤ tol)) (es ++ [x])
              = (q :: qs) ++ [x] := by
            rw [List.filter_append, hqes, hq]
          have hm' : ((qs ++ [x]).map (fun jc => |jc.2 - b|)).foldl min |q.2 - b|
              = min m |x.2 - b| := by
            rw [List.map_append, List.foldl_append, ← hm]
            simp
          by_cases hlt : |x.2 - b| < m
          · -- `x` strictly improves the minimum: spec now picks `x`
            have hmx : min m |x.2 - b| = |x.2 - b| := min_eq_right (le_of_lt hlt)
            have hfind' : List.find? (fun jc => decide (|jc.2 - b| = |x.2 - b|)) ((q :: qs) ++ [x])
                = some x := by
              rw [List.find?_append]
              have hnone : List.find? (fun jc => decide (|jc.2 - b| = |x.2 - b|)) (q :: qs) = none := by
                apply List.find?_eq_none.mpr
                intro y hy
                simp only [decide_eq_true_eq]
                have := hmin_le y hy
                omega
              rw [hnone]
              simp
            have hcond : (decide (|x.2 - b| ≤ tol) &&
                (match (some (j₁.1, m) : Option (Nat × Int)) with
                  | none => true | some best => decide (|x.2 - b| < best.2))) = true := by
              simp [htol, hlt]
            have hspec' : selSpec used b tol (es ++ [x]) = some (x.1, |x.2 - b|) := by
              simp only [selSpec]
              rw [hqual']
              show Option.map (fun jc => (jc.1, |jc.2 - b|))
                  (List.find?
                    (fun jc => decide (|jc.2 - b|
                      = ((qs ++ [x]).map (fun jc => |jc.2 - b|)).foldl min |q.2 - b|))
                    ((q :: qs) ++ [x]))
                = some (x.1, |x.2 - b|)
              rw [hm', hmx, hfind']
              rfl
            rw [hfold, if_neg hu, ih, hspec_es, hspec', hcond]
            simp
          · -- the old minimum survives: spec result unchanged
            have hmx : min m |x.2 - b| = m := min_eq_left (le_of_not_lt hlt)
            have hfind' : List.find? (fun jc => decide (|jc.2 - b| = m)) ((q :: qs) ++ [x])
                = some j₁ := by
              rw [List.find?_append, hj₁]
              simp
            have hcond : (decide (|x.2 - b| ≤ tol) &&
                (match (some (j₁.1, m) : Option (Nat × Int)) with
                  | none => true | some best => decide (|x.2 - b| < best.2))) = false := by
              simp [hlt]
            have hspec' : selSpec used b tol (es ++ [x]) = some (j₁.1, m) := by
              simp only [selSpec]
              rw [hqual']
              show Option.map (fun jc => (jc.1, |jc.2 - b|))
                  (List.find?
                    (fun jc => decide (|jc.2 - b|
                      = ((qs ++ [x]).map (fun jc => |jc.2 - b|)).foldl min |q.2 - b|))
                    ((q :: qs) ++ [x]))
                = some (j₁.1, m)
              rw [hm', hmx, hfind']
              simp [hj₁m]
            rw [hfold, if_neg hu, ih, hspec_es, hspec', hcond]
            simp
      · -- `x` is within reach but out of tolerance: ignored by both sides
        have hq0 : List.filter (fun jc => !(used.getD jc.1 false) && decide (|jc.2 - b| ≤ tol)) [x] = [] := by
          simp [List.filter, List.getD, hu', htol]
        rw [hfold, if_neg hu, ih]
        have hcond : ∀ acc : Option (Nat × Int), (decide (|x.2 - b| ≤ tol) &&
            (match acc with | none => true | some best => decide (|x.2 - b| < best.2))) = false := by
          intro acc; simp [htol]
        simp only [hcond]
        simp only [selSpec, List.filter_append, hq0, List.append_nil]
        simp

theorem findBestCand_eq_spec (cand_ms : List Int) (used : List Bool) (b tol : Int) :
    findBestCand cand_ms used b tol = specSelectCand cand_ms used b tol := by
  rw [findBestCand_eq_selFold, specSelectCand_eq_selSpec, selFold_eq_selSpec]

theorem hcStep_eq_specHcStep (cand_ms : List Int) (tol : Int) :
    hcStep cand_ms tol = specHcStep cand_ms tol := by
  funext st b
  simp only [hcStep, specHcStep, findBestCand_eq_spec]

/-! ### Conservation invariants of the hot-cue comparator -/

/-- `Interleave l₁ l₂ l`: `l` is an order-preserving interleaving of the two
subsequences `l₁` and `l₂`. -/
inductive Interleave : List Int → List Int → List Int → Prop
  | nil : Interleave [] [] []
  | left {a : Int} {xs ys zs : List Int} :
      Interleave xs ys zs → Interleave (a :: xs) ys (a :: zs)
  | right {a : Int} {xs ys zs : List Int} :
      Interleave xs ys zs → Interleave xs (a :: ys) (a :: zs)

theorem Interleave.length_eq {xs ys zs : List Int} (h : Interleave xs ys zs) :
    xs.length + ys.length = zs.length := by
  induction h with
  | nil => rfl
  | left _ ih => simp [List.length_cons]; omega
  | right _ ih => simp [List.length_cons]; omega

/-- The values of `cand` at indices not marked used, in `cand` order,
written as primitive recursion over both lists (out-of-range indices of
`used` count as unused, matching `getD _ false`). -/
def unusedValsAux : List Int → List Bool → List Int
  | [], _ => []
  | c :: cs, [] => c :: unusedValsAux cs []
  | c :: cs, u :: us => if u then unusedValsAux cs us else c :: unusedValsAux cs us

/-- `unusedValsAux` with the used array accessed through a function. -/
def unusedValsG : List Int → (Nat → Bool) → List Int
  | [], _ => []
  | c :: cs, g => if g 0 then unusedValsG cs (fun i => g (i + 1))
                  else c :: unusedValsG cs (fun i => g (i + 1))

theorem filterMap_enumFrom_unused (cs : List Int) :
    ∀ (k : Nat) (g : Nat → Bool),
      (List.enumFrom k cs).filterMap (fun jc => if g jc.1 then none else some jc.2)
        = unusedValsG cs (fun i => g (k + i)) := by
  induction cs with
  | nil => intro k g; rfl
  | cons c cs ih =>
    intro k g
    have htail : (fun i => g (k + 1 + i)) = (fun i => g (k + (i + 1))) := by
      funext i; congr 1; omega
    rw [List.enumFrom_cons, List.filterMap_cons]
    by_cases hk : g k
    · simp only [hk, if_true]
      rw [ih (k + 1) g, htail]
      simp [unusedValsG, hk]
    · have hk' : g k = false := Bool.of_not_eq_true hk
      simp only [hk', Bool.false_eq_true, if_false]
      rw [ih (k + 1) g, htail]
      simp [unusedValsG, hk']

theorem unusedValsG_const_false : ∀ cs : List Int, unusedValsG cs (fun _ => false) = cs := by
  intro cs
  induction cs with
  | nil => rfl
  | cons c cs ih => simp [unusedValsG, ih]

theorem unusedValsAux_used_nil : ∀ cs : List Int, unusedValsAux cs [] = cs := by
  intro cs
  induction cs with
  | nil => rfl
  | cons c cs ih => simp [unusedValsAux, ih]

theorem unusedValsG_eq_aux (cs : List Int) :
    ∀ used : List Bool, unusedValsG cs (fun i => used.getD i false) = unusedValsAux cs used := by
  induction cs with
  | nil => intro used; rfl
  | cons c cs ih =>
    intro used
    cases used with
    | nil =>
      rw [show (fun i => ([] : List Bool).getD i false) = (fun _ : Nat => false) by
        funext i; simp [List.getD_nil]]
      rw [unusedValsG_const_false, unusedValsAux_used_nil]
    | cons u us =>
      simp only [unusedValsG, unusedValsAux, List.getD_cons_zero]
      rw [show (fun i => (u :: us).getD (i + 1) false) = (fun i => us.getD i false) by
        funext i; simp [List.getD_cons_succ]]
      rw [ih us]

/-- Bridge from the source's `enumerate`-and-index form of `unmatched_cand`
to the structural recursion `unusedValsAux`. -/
theorem unusedVals_eq (cand : List Int) (used : List Bool) :
    cand.enum.filterMap (fun jc => if used.getD jc.1 false then none else some jc.2)
      = unusedValsAux cand used := by
  have h := filterMap_enumFrom_unused cand 0 (fun j => used.getD j false)
  have h0 : (fun i => (fun j => used.getD j false) (0 + i)) = (fun i => used.getD i false) := by
    funext i; simp
  rw [show cand.enum = List.enumFrom 0 cand from rfl, h, h0, unusedValsG_eq_aux]

theorem unusedValsAux_replicate_false (cand : List Int) :
    unusedValsAux cand (List.replicate cand.length false) = cand := by
  induction cand with
  | nil => rfl
  | cons c cs ih => simp [List.replicate, unusedValsAux, ih]

theorem unusedValsAux_sublist (cand : List Int) :
    ∀ used : List Bool, unusedValsAux cand used <+ cand := by
  induction cand with
  | nil => intro used; exact List.Sublist.refl _
  | cons c cs ih =>
    intro used
    cases used with
    | nil => simpa [unusedValsAux] using (ih []).cons₂ c
    | cons u us =>
      cases u with
      | false => simpa [unusedValsAux] using (ih us).cons₂ c
      | true => simpa [unusedValsAux] using (ih us).cons c

/-- Marking a previously unused in-range index removes exactly that value
from `unusedValsAux`: the old list is a permutation of the value consed onto
the new list, and the new list is a sublist of the old. -/
theorem unusedValsAux_set (cand : List Int) :
    ∀ (used : List Bool) (j : Nat), j < cand.length → j < used.length →
      used.getD j false = false →
      unusedValsAux cand used ~ cand.getD j 0 :: unusedValsAux cand (used.set j true) ∧
      unusedValsAux cand (used.set j true) <+ unusedValsAux cand used := by
  induction cand with
  | nil =>
    intro used j hjc _ _
    exact absurd hjc (by simp)
  | cons c cs ih =>
    intro used j hjc hj hu
    cases used with
    | nil => simp at hj
    | cons u us =>
      cases j with
      | zero =>
        have hu0 : u = false := by simpa using hu
        subst hu0
        rw [List.set_cons_zero, List.getD_cons_zero]
        have h1 : unusedValsAux (c :: cs) (false :: us) = c :: unusedValsAux cs us := by
          simp [unusedValsAux]
        have h2 : unusedValsAux (c :: cs) (true :: us) = unusedValsAux cs us := by
          simp [unusedValsAux]
        rw [h1, h2]
        exact ⟨List.Perm.refl _, List.sublist_cons_self _ _⟩
      | succ k =>
        have hkc : k < cs.length := by simpa using hjc
        have hk : k < us.length := by simpa using hj
        have hku : us.getD k false = false := by simpa [List.getD_cons_succ] using hu
        rcases ih us k hkc hk hku with ⟨hperm, hsub⟩
        rw [List.set_cons_succ, List.getD_cons_succ]
        cases u with
        | true =>
          have h1 : unusedValsAux (c :: cs) (true :: us) = unusedValsAux cs us := by
            simp [unusedValsAux]
          have h2 : unusedValsAux (c :: cs) (true :: us.set k true) = unusedValsAux cs (us.set k true) := by
            simp [unusedValsAux]
          rw [h1, h2]
          exact ⟨hperm, hsub⟩
        | false =>
          have h1 : unusedValsAux (c :: cs) (false :: us) = c :: unusedValsAux cs us := by
            simp [unusedValsAux]
          have h2 : unusedValsAux (c :: cs) (false :: us.set k true) = c :: unusedValsAux cs (us.set k true) := by
            simp [unusedValsAux]
          rw [h1, h2]
          refine ⟨?_, hsub.cons₂ c⟩
          calc c :: unusedValsAux cs us
              ~ c :: (cs.getD k 0 :: unusedValsAux cs (us.set k true)) := hperm.cons c
            _ ~ cs.getD k 0 :: c :: unusedValsAux cs (us.set k true) := List.Perm.swap _ _ _

/-- A successful selection returns an in-range, not-yet-used candidate
index. -/
theorem findBestCand_some (cand_ms : List Int) (used : List Bool) (b tol : Int)
    (jd : Nat × Int) (h : findBestCand cand_ms used b tol = some jd) :
    jd.1 < cand_ms.length ∧ used.getD jd.1 false = false := by
  rw [findBestCand_eq_spec] at h
  simp only [specSelectCand] at h
  rcases hq : List.filter
      (fun jc => !(used.getD jc.1 false) && decide (|jc.2 - b| ≤ tol)) cand_ms.enum
    with _ | ⟨q, qs⟩
  · rw [hq] at h; cases h
  · rw [hq] at h
    have h2 : Option.map (fun jc => (jc.1, |jc.2 - b|))
        (List.find? (fun jc => decide (|jc.2 - b|
          = (qs.map (fun jc => |jc.2 - b|)).foldl min |q.2 - b|)) (q :: qs)) = some jd := h
    rcases hfind : List.find?
        (fun jc => decide (|jc.2 - b|
          = (qs.map (fun jc => |jc.2 - b|)).foldl min |q.2 - b|)) (q :: qs)
      with _ | jc
    · rw [hfind] at h2; cases h2
    · rw [hfind] at h2
      have hjd : jd = (jc.1, |jc.2 - b|) := by
        cases h2; rfl
      have hmem : jc ∈ q :: qs := List.mem_of_find?_eq_some hfind
      rw [← hq] at hmem
      have hmem2 := List.mem_filter.mp hmem
      have hpred := hmem2.2
      have hunused : used.getD jc.1 false = false := by
        rcases Bool.and_eq_true_iff.mp hpred with ⟨h1, _⟩
        revert h1; cases used.getD jc.1 false <;> simp
      have hlt : jc.1 < cand_ms.length := by
        rcases jc with ⟨i, x⟩
        exact (List.mem_enum hmem2.1).1
      rw [hjd]
      exact ⟨hlt, hunused⟩

/-- Main invariant of the outer loop of `_match_hot_cue_positions`:
relative to any well-formed starting state, the loop extends `pairs` and
`unmatched_base` by lists that interleave back to the processed base values,
and consumes candidate values one per new pair. -/
theorem hcLoop_inv (cand : List Int) (tol : Int) :
    ∀ (bs : List Int) (st : HCState), st.used.length = cand.length →
      ∃ ps ub,
        (bs.foldl (hcStep cand tol) st).pairs = st.pairs ++ ps ∧
        (bs.foldl (hcStep cand tol) st).unmatched_base = st.unmatched_base ++ ub ∧
        (bs.foldl (hcStep cand tol) st).used.length = cand.length ∧
        Interleave (ps.map Prod.fst) ub bs ∧
        ps.map Prod.snd ++ unusedValsAux cand ((bs.foldl (hcStep cand tol) st).used)
          ~ unusedValsAux cand st.used ∧
        unusedValsAux cand ((bs.foldl (hcStep cand tol) st).used)
          <+ unusedValsAux cand st.used := by
  intro bs
  induction bs with
  | nil =>
    intro st hlen
    exact ⟨[], [], by simp, by simp, hlen, Interleave.nil, List.Perm.refl _,
      List.Sublist.refl _⟩
  | cons b bs ih =>
    intro st hlen
    rw [List.foldl_cons]
    rcases hsel : findBestCand cand st.used b tol with _ | jd
    · -- no candidate within tolerance: `b` joins `unmatched_base`
      have hstep : hcStep cand tol st b =
          { used := st.used
            pairs := st.pairs
            unmatched_base := st.unmatched_base ++ [b] } := by
        simp [hcStep, hsel]
      rw [hstep]
      have hih := ih
        { used := st.used
          pairs := st.pairs
          unmatched_base := st.unmatched_base ++ [b] } hlen
      rcases hih with ⟨ps, ub, h1, h2, h3, h4, h5, h6⟩
      refine ⟨ps, b :: ub, h1, ?_, h3, Interleave.right h4, h5, h6⟩
      rw [h2, List.append_assoc]
      rfl
    · -- candidate `jd.1` is consumed and paired with `b`
      rcases findBestCand_some cand st.used b tol jd hsel with ⟨hjlt, hjun⟩
      have hstep : hcStep cand tol st b =
          { used := st.used.set jd.1 true
            pairs := st.pairs ++ [(b, cand.getD jd.1 0)]
            unmatched_base := st.unmatched_base } := by
        simp [hcStep, hsel]
      rw [hstep]
      have hlen2 : (st.used.set jd.1 true).length = cand.length := by
        simpa [List.length_set] using hlen
      have hih := ih
        { used := st.used.set jd.1 true
          pairs := st.pairs ++ [(b, cand.getD jd.1 0)]
          unmatched_base := st.unmatched_base } hlen2
      rcases hih with ⟨ps, ub, h1, h2, h3, h4, h5, h6⟩
      have hjlen : jd.1 < st.used.length := by omega
      rcases unusedValsAux_set cand st.used jd.1 hjlt hjlen hjun with ⟨hperm, hsub⟩
      refine ⟨(b, cand.getD jd.1 0) :: ps, ub, ?_, h2, h3,
        Interleave.left h4, ?_, h6.trans hsub⟩
      · rw [h1, List.append_assoc]
        rfl
      · refine List.Perm.trans ?_ hperm.symm
        rw [List.map_cons, List.cons_append]
        exact h5.cons _

/-- C3: for every `base_ms`, `cand_ms` and tolerance, `_match_hot_cue_positions`
equals the spec's reference greedy definition (per base value, pick the
not-yet-consumed candidate of minimal absolute difference within tolerance,
ties broken toward the leftmost candidate; unmatched values are collected on
both sides); in particular on base `[1000, 5000]`, cand `[1050, 5200]`,
tolerance `100` it returns pairs `[(1000, 1050)]`, unmatched base `[5000]`,
unmatched cand `[5200]`. -/
theorem matchHotCuePositions_eq_spec_and_example :
    (∀ (base_ms cand_ms : List Int) (tol_ms : Int),
      matchHotCuePositions base_ms cand_ms tol_ms
        = specCompareMarkers base_ms cand_ms tol_ms) ∧
    matchHotCuePositions [1000, 5000] [1050, 5200] 100
      = ([(1000, 1050)], [5000], [5200]) := by
  constructor
  · intro base_ms cand_ms tol_ms
    simp only [matchHotCuePositions, specCompareMarkers, hcStep_eq_specHcStep]
  · decide

/-- C10: `_match_hot_cue_positions` conserves both inputs: pair count plus
unmatched-base count equals the base length, pair count plus unmatched-cand
count equals the cand length, the base components of the pairs interleaved
with the unmatched base values enumerate `base_ms` in order, the unmatched
candidate values are a subsequence of `cand_ms`, and the consumed candidate
values together with the unmatched ones are a permutation of `cand_ms`
(hence each candidate entry is consumed by at most one pair). -/
theorem matchHotCuePositions_conservation :
    ∀ (base_ms cand_ms : List Int) (tol_ms : Int),
      (matchHotCuePositions base_ms cand_ms tol_ms).1.length
          + (matchHotCuePositions base_ms cand_ms tol_ms).2.1.length = base_ms.length ∧
      (matchHotCuePositions base_ms cand_ms tol_ms).1.length
          + (matchHotCuePositions base_ms cand_ms tol_ms).2.2.length = cand_ms.length ∧
      Interleave ((matchHotCuePositions base_ms cand_ms tol_ms).1.map Prod.fst)
        (matchHotCuePositions base_ms cand_ms tol_ms).2.1 base_ms ∧
      (matchHotCuePositions base_ms cand_ms tol_ms).2.2 <+ cand_ms ∧
      ((matchHotCuePositions base_ms cand_ms tol_ms).1.map Prod.snd
          ++ (matchHotCuePositions base_ms cand_ms tol_ms).2.2) ~ cand_ms := by
  intro base_ms cand_ms tol_ms
  have hlen0 : (List.replicate cand_ms.length false).length = cand_ms.length := by
    simp
  have hinv := hcLoop_inv cand_ms tol_ms base_ms
    ⟨List.replicate cand_ms.length false, [], []⟩ hlen0
  rcases hinv with ⟨ps, ub, h1, h2, h3, h4, h5, h6⟩
  have hpairs : (matchHotCuePositions base_ms cand_ms tol_ms).1 = ps := by
    simp only [matchHotCuePositions]
    rw [h1]
    simp
  have hub : (matchHotCuePositions base_ms cand_ms tol_ms).2.1 = ub := by
    simp only [matchHotCuePositions]
    rw [h2]
    simp
  have huc : (matchHotCuePositions base_ms cand_ms tol_ms).2.2
      = unusedValsAux cand_ms ((base_ms.foldl (hcStep cand_ms tol_ms)
          ⟨List.replicate cand_ms.length false, [], []⟩).used) := by
    simp only [matchHotCuePositions]
    rw [unusedVals_eq]
  rw [unusedValsAux_replicate_false] at h5 h6
  refine ⟨?_, ?_, ?_, ?_, ?_⟩
  · rw [hpairs, hub]
    have := h4.length_eq
    simpa using this
  · rw [hpairs, huc]
    have := h5.length_eq
    simp only [List.length_append, List.length_map] at this
    omega
  · rw [hpairs, hub]; exact h4
  · rw [huc]; exact h6
  · rw [hpairs, huc]; exact h5

/-- C8 counterexample: the claim "normalize("Dré & Co. — Mix!") returns
"dre co mix" and this equals normalize("dre and co mix")" is false: the
normalizer does not fold "and", so `norm "dre and co mix" = "dre and co mix"`,
which differs from `"dre co mix"`. -/
theorem norm_example_claim_false :
    ¬ (norm "Dré & Co. — Mix!" = "dre co mix" ∧
       norm "Dré & Co. — Mix!" = norm "dre and co mix") := by
  decide

/-- C8 amended: `norm "Dré & Co. — Mix!"` is exactly `"dre co mix"`, while
`norm "dre and co mix"` is `"dre and co mix"`, a different string (the
normalizer strips punctuation and folds diacritics but performs no
word-level folding such as "&" ↔ "and"). -/
theorem norm_example_amended :
    norm "Dré & Co. — Mix!" = "dre co mix" ∧
    norm "dre and co mix" = "dre and co mix" ∧
    norm "Dré & Co. — Mix!" ≠ norm "dre and co mix" := by
  decide

/-! ## Core record (`Rec`, lines 140-150) -/

/-- The comparison record built per track-in-playlist slot (lines 140-150). -/
structure Rec where
  content_id : Nat
  song_pl_id : String
  artist_norm : String
  title_norm : String
  fb_norm : Option String
  label : String
  track_no : Int
  hot_cues : Nat
  hot_cue_ms : List Int
deriving Repr, DecidableEq

instance : Inhabited Rec :=
  ⟨{ content_id := 0, song_pl_id := "", artist_norm := "", title_norm := "",
     fb_norm := none, label := "", track_no := 0, hot_cues := 0, hot_cue_ms := [] }⟩

/-! ## Reorder loop (`--apply-order`, lines 366-416) -/

/-- Modelled from the spec: "Desired final order = matched candidate slot-IDs
sorted by their paired base record's `trackNo` (ascending; stable for ties)".
The source calls Python's external stable `sorted` builtin
(`sorted(matches, key=lambda t: t[0].track_no)`, line 376); we model it as a
stable insertion sort on the base record's track number. -/
def insertByTrackNo (m : Rec × Rec) : List (Rec × Rec) → List (Rec × Rec)
  | [] => [m]
  | y :: ys => if y.1.track_no ≤ m.1.track_no then y :: insertByTrackNo m ys
               else m :: y :: ys

/-- Modelled from the spec: the stable ascending sort of the matched pairs by
base `trackNo` (line 376). -/
def sortByBaseTrackNo (mts : List (Rec × Rec)) : List (Rec × Rec) :=
  mts.foldl (fun acc m => insertByTrackNo m acc) []

/-- `desired_ids` (line 377): candidate slot ids in base track-number order. -/
def desiredIds (mts : List (Rec × Rec)) : List String :=
  (sortByBaseTrackNo mts).map (fun bc => bc.2.song_pl_id)

/-- `pos.get(sid)` on the in-memory position map, embedded as an association
list whose keys are the candidate slot ids in playlist order (a Python dict
with a fixed key set; only values are ever updated). -/
def lookupPos (pos : List (String × Nat)) (sid : String) : Option Nat :=
  (pos.find? (fun sp => sp.1 = sid)).map (fun sp => sp.2)

/-- The ripple update of the position map (lines 405-414): on a forward move
(`i > curr`) every recorded position in `(curr, i]` shifts down by one; on a
backward move every recorded position in `[i, curr)` shifts up by one. -/
def ripple (pos : List (String × Nat)) (curr i : Nat) : List (String × Nat) :=
  if i > curr then
    pos.map (fun sp => if curr < sp.2 ∧ sp.2 ≤ i then (sp.1, sp.2 - 1) else sp)
  else
    pos.map (fun sp => if i ≤ sp.2 ∧ sp.2 < curr then (sp.1, sp.2 + 1) else sp)

/-- `pos[sid] = i` (line 415) for a key already present in the map (the loop
guarantees presence: it first reads `pos.get(sid)`). -/
def setPos (pos : List (String × Nat)) (sid : String) (i : Nat) : List (String × Nat) :=
  pos.map (fun sp => if sp.1 = sid then (sp.1, i) else sp)

/-- The position map after a successful move of `sid` from recorded position
`curr` to target `i`: ripple (lines 405-414), then `pos[sid] = i` (line 415). -/
def posAfterMove (pos : List (String × Nat)) (sid : String) (curr i : Nat) :
    List (String × Nat) :=
  setPos (ripple pos curr i) sid i

/-- Modelled from the spec: the external move operation
`moveSlot(playlist, slotID, newTrackNo)` of §6 (the source calls
`a.db.move_song_in_playlist(cand_playlist, sid, new_track_no=i)`, line 398,
provided by the external database layer): the playlist order with the slot
removed and reinserted at 1-based position `newTrackNo`. -/
def moveSlot (l : List String) (sid : String) (i : Nat) : List String :=
  (l.erase sid).take (i - 1) ++ sid :: (l.erase sid).drop (i - 1)

/-- State of the reorder loop: the in-memory position map, the external
playlist order (owned by the database collaborator), and the successful
moves recorded in `moves_made` as `(sid, from, to)`. -/
structure ReorderState where
  pos : List (String × Nat)
  db : List String
  moves : List (String × Nat × Nat)
deriving Repr, DecidableEq

/-- One iteration of the reorder loop body (lines 386-416) for the pair
`(i, sid)` produced by `enumerate(desired_ids, start=1)`; `moveOk` tells
whether the external move operation succeeds (line 398's `try`). -/
def reorderStep (moveOk : String → Nat → Bool) (st : ReorderState)
    (isid : Nat × String) : ReorderState :=
  match lookupPos st.pos isid.2 with
  | none => st
  | some curr =>
    if curr = isid.1 then st
    else if moveOk isid.2 isid.1 then
      { pos := posAfterMove st.pos isid.2 curr isid.1
        db := moveSlot st.db isid.2 isid.1
        moves := st.moves ++ [(isid.2, curr, isid.1)] }
    else st

/-- Folding the loop body over an explicit list of `(target, sid)` items. -/
def reorderSteps (moveOk : String → Nat → Bool) (items : List (Nat × String))
    (st : ReorderState) : ReorderState :=
  items.foldl (reorderStep moveOk) st

/-- The reorder loop (lines 386-416):
`for i, sid in enumerate(desired_ids, start=1)`. -/
def reorderLoop (moveOk : String → Nat → Bool) (desired_ids : List String)
    (st : ReorderState) : ReorderState :=
  reorderSteps moveOk (List.enumFrom 1 desired_ids) st

/-- Initial state (lines 381-383): `pos = {sid: i + 1}` over the candidate
playlist order, the external playlist in that same order, and no moves. -/
def initState (cand_ids : List String) : ReorderState :=
  { pos := (List.enumFrom 1 cand_ids).map (fun p => (p.2, p.1))
    db := cand_ids
    moves := [] }

/-- Replay a list of `(sid, target)` single-item moves against a playlist
order through the external move operation. -/
def applyMoves (ms : List (String × Nat)) (l : List String) : List String :=
  ms.foldl (fun acc m => moveSlot acc m.1 m.2) l

/-! ### Lookup lemmas for the position map -/

/-- Looking up a key after a value-only rewrite of the association list. -/
theorem lookupPos_mapVal (f : String → Nat → Nat) (pos : List (String × Nat)) (s : String) :
    lookupPos (pos.map (fun sp => (sp.1, f sp.1 sp.2))) s = (lookupPos pos s).map (f s) := by
  induction pos with
  | nil => rfl
  | cons hd tl ih =>
    by_cases h : hd.1 = s
    · simp only [lookupPos, List.map_cons]
      rw [List.find?_cons_of_pos _ (by simpa using h),
        List.find?_cons_of_pos _ (by simpa using h)]
      simp [h]
    · simp only [lookupPos, List.map_cons]
      rw [List.find?_cons_of_neg _ (by simpa using h),
        List.find?_cons_of_neg _ (by simpa using h)]
      exact ih

/-- The ripple update only rewrites values, keyed by the old value. -/
theorem ripple_eq_mapVal (pos : List (String × Nat)) (curr i : Nat) :
    ripple pos curr i = pos.map (fun sp =>
      (sp.1, if i > curr then (if curr < sp.2 ∧ sp.2 ≤ i then sp.2 - 1 else sp.2)
             else (if i ≤ sp.2 ∧ sp.2 < curr then sp.2 + 1 else sp.2))) := by
  simp only [ripple]
  by_cases h : i > curr
  · rw [if_pos h]
    apply List.map_congr_left
    intro sp _
    by_cases hc : curr < sp.2 ∧ sp.2 ≤ i
    · simp [hc, h]
    · simp [hc, h]
  · rw [if_neg h]
    apply List.map_congr_left
    intro sp _
    by_cases hc : i ≤ sp.2 ∧ sp.2 < curr
    · simp [hc, h]
    · simp [hc, h]

/-- `setPos` only rewrites values, keyed by the key. -/
theorem setPos_eq_mapVal (pos : List (String × Nat)) (sid : String) (i : Nat) :
    setPos pos sid i = pos.map (fun sp => (sp.1, if sp.1 = sid then i else sp.2)) := by
  simp only [setPos]
  apply List.map_congr_left
  intro sp _
  by_cases h : sp.1 = sid
  · simp [h]
  · simp [h]

/-- Composite lookup rule for `posAfterMove`. -/
theorem lookupPos_posAfterMove (pos : List (String × Nat)) (sid s : String) (curr i : Nat) :
    lookupPos (posAfterMove pos sid curr i) s =
      (lookupPos pos s).map (fun p =>
        if s = sid then i
        else if i > curr then (if curr < p ∧ p ≤ i then p - 1 else p)
        else (if i ≤ p ∧ p < curr then p + 1 else p)) := by
  rw [posAfterMove, setPos_eq_mapVal, ripple_eq_mapVal, List.map_map]
  have hdone := lookupPos_mapVal
    (fun k v =>
      if k = sid then i
      else if i > curr then (if curr < v ∧ v ≤ i then v - 1 else v)
      else (if i ≤ v ∧ v < curr then v + 1 else v)) pos s
  by_cases hs : s = sid
  · subst hs
    rw [show ((fun sp : String × Nat => (sp.1, if sp.1 = s then i else sp.2)) ∘
        (fun sp : String × Nat =>
          (sp.1, if i > curr then (if curr < sp.2 ∧ sp.2 ≤ i then sp.2 - 1 else sp.2)
                 else (if i ≤ sp.2 ∧ sp.2 < curr then sp.2 + 1 else sp.2))))
        = (fun sp : String × Nat => (sp.1,
            (fun k v =>
              if k = s then i
              else if i > curr then (if curr < v ∧ v ≤ i then v - 1 else v)
              else (if i ≤ v ∧ v < curr then v + 1 else v)) sp.1 sp.2)) from ?_]
    · rw [hdone]
    · funext sp
      by_cases hk : sp.1 = s
      · simp [hk]
      · simp [hk]
  · rw [show ((fun sp : String × Nat => (sp.1, if sp.1 = sid then i else sp.2)) ∘
        (fun sp : String × Nat =>
          (sp.1, if i > curr then (if curr < sp.2 ∧ sp.2 ≤ i then sp.2 - 1 else sp.2)
                 else (if i ≤ sp.2 ∧ sp.2 < curr then sp.2 + 1 else sp.2))))
        = (fun sp : String × Nat => (sp.1,
            (fun k v =>
              if k = sid then i
              else if i > curr then (if curr < v ∧ v ≤ i then v - 1 else v)
              else (if i ≤ v ∧ v < curr then v + 1 else v)) sp.1 sp.2)) from ?_]
    · rw [hdone]
    · funext sp
      by_cases hk : sp.1 = sid
      · simp [hk]
      · simp [hk]

/-- C4: after each successful move of a slot `sid` from recorded position
`curr` to target position `i`, the position map is updated exactly as the
ripple rule requires: if `i > curr`, every other slot whose recorded position
lies in `(curr, i]` decreases by one (all others keep their position); if
`i < curr`, every slot whose recorded position lies in `[i, curr)` increases
by one; and `pos[sid]` becomes `i`. -/
theorem posAfterMove_ripple_rule (pos : List (String × Nat)) (sid s : String)
    (curr i p : Nat) (hsid : lookupPos pos sid = some curr)
    (hs : lookupPos pos s = some p) (hne : s ≠ sid) :
    lookupPos (posAfterMove pos sid curr i) sid = some i ∧
    (i > curr → lookupPos (posAfterMove pos sid curr i) s
        = some (if curr < p ∧ p ≤ i then p - 1 else p)) ∧
    (i < curr → lookupPos (posAfterMove pos sid curr i) s
        = some (if i ≤ p ∧ p < curr then p + 1 else p)) := by
  refine ⟨?_, ?_, ?_⟩
  · rw [lookupPos_posAfterMove, hsid]
    simp
  · intro hgt
    rw [lookupPos_posAfterMove, hs]
    simp [hne, hgt]
  · intro hlt
    have hngt : ¬ i > curr := by omega
    rw [lookupPos_posAfterMove, hs]
    simp [hne, hngt]

/-- C4 witness: in a five-slot map, moving slot "e" from position 5 to
position 2 sets `pos["e"] = 2` and shifts the slots previously at positions
2, 3, 4 (here "b", "c", "d") to positions 3, 4, 5. -/
theorem posAfterMove_ripple_rule_witness :
    lookupPos (posAfterMove [("a",1),("b",2),("c",3),("d",4),("e",5)] "e" 5 2) "e" = some 2 ∧
    lookupPos (posAfterMove [("a",1),("b",2),("c",3),("d",4),("e",5)] "e" 5 2) "b" = some 3 ∧
    lookupPos (posAfterMove [("a",1),("b",2),("c",3),("d",4),("e",5)] "e" 5 2) "c" = some 4 ∧
    lookupPos (posAfterMove [("a",1),("b",2),("c",3),("d",4),("e",5)] "e" 5 2) "d" = some 5 := by
  refine ⟨(posAfterMove_ripple_rule [("a",1),("b",2),("c",3),("d",4),("e",5)]
    "e" "b" 5 2 2 (by decide) (by decide) (by decide)).1, ?_, ?_, ?_⟩
  · have h := (posAfterMove_ripple_rule [("a",1),("b",2),("c",3),("d",4),("e",5)]
      "e" "b" 5 2 2 (by decide) (by decide) (by decide)).2.2 (by decide)
    simpa using h
  · have h := (posAfterMove_ripple_rule [("a",1),("b",2),("c",3),("d",4),("e",5)]
      "e" "c" 5 2 3 (by decide) (by decide) (by decide)).2.2 (by decide)
    simpa using h
  · have h := (posAfterMove_ripple_rule [("a",1),("b",2),("c",3),("d",4),("e",5)]
      "e" "d" 5 2 4 (by decide) (by decide) (by decide)).2.2 (by decide)
    simpa using h

/-- C5: when the external move operation fails for one slot, the whole
position map — the failed slot's entry and every other entry — is exactly as
before the attempt, and the loop continues with the remaining target
positions from those pre-failure positions (a failed move neither corrupts
`pos` nor aborts processing). -/
theorem reorderStep_failure (moveOk : String → Nat → Bool) (st : ReorderState)
    (i : Nat) (sid : String) (rest : List (Nat × String))
    (hfail : moveOk sid i = false) :
    (reorderStep moveOk st (i, sid)).pos = st.pos ∧
    reorderSteps moveOk ((i, sid) :: rest) st = reorderSteps moveOk rest st := by
  have hstep : reorderStep moveOk st (i, sid) = st := by
    simp only [reorderStep]
    rcases lookupPos st.pos sid with _ | curr
    · rfl
    · by_cases hc : curr = i
      · simp [hc]
      · simp [hc, hfail]
  exact ⟨by rw [hstep], by simp only [reorderSteps, List.foldl_cons, hstep]⟩

/-- C5 witness: a concrete failed move (the oracle always fails) leaves the
two-slot position map untouched and the loop equal to processing only the
remaining item. -/
theorem reorderStep_failure_witness :
    (reorderStep (fun _ _ => false) (initState ["a", "b"]) (1, "b")).pos
        = (initState ["a", "b"]).pos ∧
    reorderSteps (fun _ _ => false) [(1, "b"), (2, "a")] (initState ["a", "b"])
        = reorderSteps (fun _ _ => false) [(2, "a")] (initState ["a", "b"]) :=
  ⟨(reorderStep_failure (fun _ _ => false) (initState ["a", "b"]) 1 "b" [(2, "a")] rfl).1,
   (reorderStep_failure (fun _ _ => false) (initState ["a", "b"]) 1 "b" [(2, "a")] rfl).2⟩

/-! ### Alignment: the loop skips slots already in place -/

/-- Initial lookup: in the map built from the candidate order, a slot id that
first occurs at index `m` is recorded at position `k + 1 + m`. -/
theorem init_lookup (cand : List String) :
    ∀ (k m : Nat) (hm : m < cand.length), cand.Nodup →
      lookupPos ((List.enumFrom (k + 1) cand).map (fun p => (p.2, p.1)))
        (cand.get ⟨m, hm⟩) = some (k + 1 + m) := by
  induction cand with
  | nil => intro k m hm _; exact absurd hm (by simp)
  | cons c cs ih =>
    intro k m hm hnd
    rw [List.enumFrom_cons]
    cases m with
    | zero =>
      simp only [List.map_cons, lookupPos]
      rw [List.find?_cons_of_pos _ (by simp [List.get])]
      simp
    | succ m' =>
      have hm' : m' < cs.length := by simpa using hm
      have hmem : cs.get ⟨m', hm'⟩ ∈ cs := List.get_mem cs m' hm'
      have hneq : ¬ (c = cs.get ⟨m', hm'⟩) := by
        intro hEq
        exact (List.nodup_cons.mp hnd).1 (hEq ▸ hmem)
      have hget : (c :: cs).get ⟨m' + 1, hm⟩ = cs.get ⟨m', hm'⟩ := rfl
      rw [hget]
      simp only [List.map_cons, lookupPos]
      rw [List.find?_cons_of_neg _ (by
        simp only [decide_eq_true_eq]
        exact hneq)]
      have := ih (k + 1) m' hm' (List.nodup_cons.mp hnd).2
      simp only [lookupPos] at this
      rw [show k + 1 + (m' + 1) = k + 1 + 1 + m' by omega]
      exact this

/-- If every remaining desired slot is already recorded at its target
position, the loop changes nothing at all (in particular it makes no
moves). -/
theorem skip_aligned (moveOk : String → Nat → Bool) :
    ∀ (ds : List String) (k : Nat) (st : ReorderState),
      (∀ (m : Nat) (hm : m < ds.length),
        lookupPos st.pos (ds.get ⟨m, hm⟩) = some (k + 1 + m)) →
      reorderSteps moveOk (List.enumFrom (k + 1) ds) st = st := by
  intro ds
  induction ds with
  | nil => intro k st _; rfl
  | cons d ds ih =>
    intro k st h
    rw [List.enumFrom_cons]
    have h0 : lookupPos st.pos d = some (k + 1) := by
      have := h 0 (by simp)
      simpa using this
    have hstep : reorderStep moveOk st (k + 1, d) = st := by
      simp only [reorderStep, h0]
      simp
    simp only [reorderSteps, List.foldl_cons, hstep]
    have htail : ∀ (m : Nat) (hm : m < ds.length),
        lookupPos st.pos (ds.get ⟨m, hm⟩) = some (k + 1 + 1 + m) := by
      intro m hm
      have := h (m + 1) (by simpa using Nat.succ_lt_succ hm)
      rw [show k + 1 + 1 + m = k + 1 + (m + 1) by omega]
      exact this
    exact ih (k + 1) st htail

/-! ### Correctness of the reorder loop -/

/-- Consistency of the position map with the external playlist order: the
keys enumerate the playlist (as a multiset) and every recorded position
points at its own slot in the playlist. -/
def posCons (pos : List (String × Nat)) (db : List String) : Prop :=
  pos.map Prod.fst ~ db ∧ ∀ sp ∈ pos, 1 ≤ sp.2 ∧ db[sp.2 - 1]? = some sp.1

/-- Looking up any slot of the playlist in a consistent position map
succeeds and returns a faithful position. -/
theorem posCons_lookup (pos : List (String × Nat)) (db : List String)
    (h : posCons pos db) (d : String) (hd : d ∈ db) :
    ∃ curr, lookupPos pos d = some curr ∧ 1 ≤ curr ∧ db[curr - 1]? = some d := by
  rcases h with ⟨hk, hp⟩
  rcases hfind : List.find? (fun sp => sp.1 = d) pos with _ | sp₀
  · exfalso
    have hdm : d ∈ pos.map Prod.fst := hk.mem_iff.mpr hd
    rcases List.mem_map.mp hdm with ⟨sp, hsp, hfst⟩
    have := List.find?_eq_none.mp hfind sp hsp
    simp [hfst] at this
  · have hmem := List.mem_of_find?_eq_some hfind
    have hkey : sp₀.1 = d := by simpa using List.find?_some hfind
    rcases hp sp₀ hmem with ⟨h1, h2⟩
    exact ⟨sp₀.2, by simp [lookupPos, hfind], h1, by rw [← hkey]; exact h2⟩

theorem erase_getElem_lt {B : List String} {c q : Nat} {d : String}
    (hnd : B.Nodup) (hc : B[c]? = some d) (hq : q < c) :
    (B.erase d)[q]? = B[q]? := by
  rcases List.getElem?_eq_some.mp hc with ⟨hclen, hval⟩
  have hdecomp : B = B.take c ++ d :: B.drop (c + 1) := by
    conv_lhs => rw [← List.take_append_drop c B]
    rw [List.drop_eq_getElem_cons hclen, hval]
  have hndis : d ∉ B.take c := by
    have h2 : (B.take c ++ d :: B.drop (c + 1)).Nodup := hdecomp ▸ hnd
    rcases List.nodup_append.mp h2 with ⟨_, _, hdisj⟩
    intro hmem
    exact hdisj hmem (List.mem_cons_self _ _)
  have herase : B.erase d = B.take c ++ B.drop (c + 1) := by
    conv_lhs => rw [hdecomp]
    rw [List.erase_append_right _ hndis, List.erase_cons_head]
  have hlen : (B.take c).length = c := by
    rw [List.length_take]; omega
  rw [herase, List.getElem?_append_left (by omega), List.getElem?_take]
  simp [hq]

theorem erase_getElem_gt {B : List String} {c q : Nat} {d : String}
    (hnd : B.Nodup) (hc : B[c]? = some d) (hq : c < q) :
    (B.erase d)[q - 1]? = B[q]? := by
  rcases List.getElem?_eq_some.mp hc with ⟨hclen, hval⟩
  have hdecomp : B = B.take c ++ d :: B.drop (c + 1) := by
    conv_lhs => rw [← List.take_append_drop c B]
    rw [List.drop_eq_getElem_cons hclen, hval]
  have hndis : d ∉ B.take c := by
    have h2 : (B.take c ++ d :: B.drop (c + 1)).Nodup := hdecomp ▸ hnd
    rcases List.nodup_append.mp h2 with ⟨_, _, hdisj⟩
    intro hmem
    exact hdisj hmem (List.mem_cons_self _ _)
  have herase : B.erase d = B.take c ++ B.drop (c + 1) := by
    conv_lhs => rw [hdecomp]
    rw [List.erase_append_right _ hndis, List.erase_cons_head]
  have hlen : (B.take c).length = c := by
    rw [List.length_take]; omega
  rw [herase, List.getElem?_append_right (by rw [hlen]; omega), hlen, List.getElem?_drop]
  congr 1
  omega

/-- `posAfterMove` as a single value-rewriting pass over the map. -/
theorem posAfterMove_eq_mapVal (pos : List (String × Nat)) (sid : String) (curr i : Nat) :
    posAfterMove pos sid curr i = pos.map (fun sp =>
      (sp.1, if sp.1 = sid then i
             else if i > curr then (if curr < sp.2 ∧ sp.2 ≤ i then sp.2 - 1 else sp.2)
             else (if i ≤ sp.2 ∧ sp.2 < curr then sp.2 + 1 else sp.2))) := by
  rw [posAfterMove, ripple_eq_mapVal, setPos_eq_mapVal, List.map_map]
  apply List.map_congr_left
  intro sp _
  by_cases h : sp.1 = sid <;> simp [h]

theorem posAfterMove_keys (pos : List (String × Nat)) (sid : String) (curr i : Nat) :
    (posAfterMove pos sid curr i).map Prod.fst = pos.map Prod.fst := by
  rw [posAfterMove_eq_mapVal, List.map_map]
  apply List.map_congr_left
  intro sp _
  rfl

/-- Preservation of consistency by a successful backward move of slot `d`
from position `curr` to position `k + 1` when the first `k` slots are already
in place. -/
theorem posCons_move (A B : List String) (pos : List (String × Nat)) (d : String)
    (curr : Nat) (hnd : (A ++ B).Nodup)
    (hcons : posCons pos (A ++ B))
    (hc1 : 1 ≤ curr) (hcget : (A ++ B)[curr - 1]? = some d)
    (hgt : curr > A.length + 1) :
    posCons (posAfterMove pos d curr (A.length + 1)) (A ++ d :: B.erase d) := by
  rcases hcons with ⟨hk, hp⟩
  have hBnd : B.Nodup := (List.nodup_append.mp hnd).2.1
  have hcB : B[curr - 1 - A.length]? = some d := by
    have := hcget
    rw [List.getElem?_append_right (by omega)] at this
    exact this
  have hdB : d ∈ B := by
    rcases List.getElem?_eq_some.mp hcB with ⟨hlt, hval⟩
    exact hval ▸ List.getElem_mem hlt
  constructor
  · rw [posAfterMove_keys]
    exact hk.trans (List.Perm.append_left A (List.perm_cons_erase hdB))
  · intro sp' hsp'
    rw [posAfterMove_eq_mapVal] at hsp'
    rcases List.mem_map.mp hsp' with ⟨sp, hsp, hspEq⟩
    rcases hp sp hsp with ⟨hge1, hget⟩
    by_cases hkey : sp.1 = d
    · -- the moved slot itself: recorded at the target position
      have hEq : sp' = (sp.1, A.length + 1) := by
        rw [← hspEq]; simp [hkey]
      rw [hEq]
      refine ⟨by omega, ?_⟩
      rw [hkey, show A.length + 1 - 1 = A.length by omega,
        List.getElem?_append_right (le_refl A.length)]
      simp
    · -- any other slot: ripple rule (backward branch, since curr > k + 1)
      have hngt : ¬ (A.length + 1 > curr) := by omega
      by_cases hcase : A.length + 1 ≤ sp.2 ∧ sp.2 < curr
      · -- shifted up by one
        have hEq : sp' = (sp.1, sp.2 + 1) := by
          rw [← hspEq]; simp [hkey, hngt, hcase]
        rw [hEq]
        refine ⟨by omega, ?_⟩
        have hpB : B[sp.2 - 1 - A.length]? = some sp.1 := by
          have := hget
          rw [List.getElem?_append_right (by omega)] at this
          exact this
        have hqc : sp.2 - 1 - A.length < curr - 1 - A.length := by omega
        rw [show sp.2 + 1 - 1 = sp.2 by omega,
          List.getElem?_append_right (by omega : A.length ≤ sp.2),
          show sp.2 - A.length = (sp.2 - 1 - A.length) + 1 by omega,
          List.getElem?_cons_succ, erase_getElem_lt hBnd hcB hqc]
        exact hpB
      · -- position unchanged
        have hEq : sp' = (sp.1, sp.2) := by
          rw [← hspEq]; simp [hkey, hngt, hcase]
        rw [hEq]
        refine ⟨hge1, ?_⟩
        by_cases hsmall : sp.2 - 1 < A.length
        · -- still inside the fixed prefix
          have hA : A[sp.2 - 1]? = some sp.1 := by
            have := hget
            rw [List.getElem?_append_left hsmall] at this
            exact this
          rw [List.getElem?_append_left hsmall]
          exact hA
        · -- beyond the moved slot: index inside `B` is above `curr`'s
          have hple : ¬ (sp.2 < curr) := by
            intro hplt
            exact hcase ⟨by omega, hplt⟩
          have hpB : B[sp.2 - 1 - A.length]? = some sp.1 := by
            have := hget
            rw [List.getElem?_append_right (by omega)] at this
            exact this
          have hqc : curr - 1 - A.length < sp.2 - 1 - A.length := by
            have hne : sp.2 - 1 - A.length ≠ curr - 1 - A.length := by
              intro hEq2
              rw [hEq2, hcB] at hpB
              refine hkey ?_
              injection hpB with h3
              exact h3.symm
            omega
          rw [List.getElem?_append_right (by omega : A.length ≤ sp.2 - 1),
            show sp.2 - 1 - A.length = (sp.2 - 1 - A.length - 1) + 1 by omega,
            List.getElem?_cons_succ]
          have hfin := erase_getElem_gt hBnd hcB hqc
          rw [show sp.2 - 1 - A.length - 1 = (sp.2 - 1 - A.length) - 1 by rfl, hfin]
          exact hpB

/-- Main induction: when the playlist starts with `A` already in place and
the remaining desired slots are a permutation of the tail `B`, processing
them at targets `A.length + 1, ...` (all moves succeeding) ends with the
playlist equal to `A ++ ds`. -/
theorem reorder_correct_aux :
    ∀ (ds : List String) (A B : List String) (st : ReorderState),
      st.db = A ++ B →
      st.db.Nodup →
      posCons st.pos st.db →
      ds ~ B →
      (reorderSteps (fun _ _ => true) (List.enumFrom (A.length + 1) ds) st).db
        = A ++ ds := by
  intro ds
  induction ds with
  | nil =>
    intro A B st hdb hnd hcons hperm
    have hB : B = [] := (hperm.symm).eq_nil
    subst hB
    simpa [reorderSteps] using hdb
  | cons d ds ih =>
    intro A B st hdb hnd hcons hperm
    have hdB : d ∈ B := hperm.mem_iff.mp (List.mem_cons_self d ds)
    have hddb : d ∈ st.db := by
      rw [hdb]; exact List.mem_append_right A hdB
    rcases posCons_lookup st.pos st.db hcons d hddb with ⟨curr, hlk, hc1, hcget⟩
    have hAlen_le : A.length ≤ curr - 1 := by
      by_contra hlt
      push_neg at hlt
      have hsplit : st.db[curr - 1]? = A[curr - 1]? := by
        rw [hdb]; exact List.getElem?_append_left hlt
      rw [hsplit] at hcget
      rcases List.getElem?_eq_some.mp hcget with ⟨hAlt, hval⟩
      have hdA : d ∈ A := hval ▸ List.getElem_mem hAlt
      rcases List.nodup_append.mp (hdb ▸ hnd) with ⟨_, _, hdisj⟩
      exact hdisj hdA hdB
    rw [List.enumFrom_cons]
    by_cases hskip : curr = A.length + 1
    · -- already in place: the loop skips this slot
      have hstep : reorderStep (fun _ _ => true) st (A.length + 1, d) = st := by
        simp only [reorderStep, hlk]
        simp [hskip]
      have hgetB : B[0]? = some d := by
        have h0 : st.db[A.length]? = some d := by
          rw [show A.length = curr - 1 by omega]
          exact hcget
        rw [hdb, List.getElem?_append_right (le_refl A.length)] at h0
        simpa using h0
      obtain ⟨B', hB'⟩ : ∃ B', B = d :: B' := by
        cases B with
        | nil => simp at hgetB
        | cons b bs =>
          simp only [List.getElem?_cons_zero] at hgetB
          exact ⟨bs, by rw [show b = d by injection hgetB]⟩
      have hdb' : st.db = (A ++ [d]) ++ B' := by
        rw [hdb, hB']
        simp
      have hperm' : ds ~ B' := by
        have := hB' ▸ hperm
        exact this.cons_inv
      have hres := ih (A ++ [d]) B' st hdb' hnd hcons hperm'
      simp only [reorderSteps, List.foldl_cons, hstep]
      have hlen1 : (A ++ [d]).length = A.length + 1 := by simp
      rw [hlen1] at hres
      simp only [reorderSteps] at hres
      rw [hres]
      simp
    · -- genuine move from `curr` back to `A.length + 1`
      have hgt : curr > A.length + 1 := by omega
      have hstep : reorderStep (fun _ _ => true) st (A.length + 1, d) =
          { pos := posAfterMove st.pos d curr (A.length + 1)
            db := moveSlot st.db d (A.length + 1)
            moves := st.moves ++ [(d, curr, A.length + 1)] } := by
        simp only [reorderStep, hlk]
        simp [hskip]
      have hdnA : d ∉ A := fun hdA =>
        (List.nodup_append.mp (hdb ▸ hnd)).2.2 hdA hdB
      have hmove : moveSlot st.db d (A.length + 1) = A ++ d :: B.erase d := by
        rw [moveSlot, hdb, List.erase_append_right _ hdnA,
          show A.length + 1 - 1 = A.length by omega,
          List.take_left, List.drop_left]
      have hpermB : B ~ d :: B.erase d := List.perm_cons_erase hdB
      have hnd' : (A ++ d :: B.erase d).Nodup := by
        have hpermdb : (A ++ B) ~ (A ++ d :: B.erase d) := List.Perm.append_left A hpermB
        exact hpermdb.nodup_iff.mp (hdb ▸ hnd)
      have hcons' : posCons (posAfterMove st.pos d curr (A.length + 1))
          (A ++ d :: B.erase d) := by
        refine posCons_move A B st.pos d curr (hdb ▸ hnd) ?_ hc1 (hdb ▸ hcget) hgt
        rw [← hdb]
        exact hcons
      have hperm' : ds ~ B.erase d := (hperm.trans hpermB).cons_inv
      have hres := ih (A ++ [d]) (B.erase d)
        { pos := posAfterMove st.pos d curr (A.length + 1)
          db := moveSlot st.db d (A.length + 1)
          moves := st.moves ++ [(d, curr, A.length + 1)] }
        (by rw [hmove]; simp)
        (by rw [hmove]; exact hnd')
        (by rw [hmove]; exact hcons')
        hperm'
      simp only [reorderSteps, List.foldl_cons, hstep]
      have hlen1 : (A ++ [d]).length = A.length + 1 := by simp
      rw [hlen1] at hres
      simp only [reorderSteps] at hres
      rw [hres]
      simp

/-- The initial position map is consistent with the candidate order. -/
theorem initState_posCons (cand : List String) : posCons (initState cand).pos cand := by
  constructor
  · have hkeys : ((List.enumFrom 1 cand).map (fun p => (p.2, p.1))).map Prod.fst
        = (List.enumFrom 1 cand).map Prod.snd := by
      rw [List.map_map]
      apply List.map_congr_left
      intro q _
      rfl
    simp only [initState]
    rw [hkeys, List.enumFrom_map_snd]
  · intro sp hsp
    simp only [initState, List.mem_map] at hsp
    rcases hsp with ⟨q, hq, hqEq⟩
    rcases q with ⟨qi, qx⟩
    rcases List.mem_enumFrom hq with ⟨h1, h2, h3⟩
    rw [← hqEq]
    refine ⟨h1, ?_⟩
    have hlt : qi - 1 < cand.length := by omega
    rw [List.getElem?_eq_getElem hlt]
    exact congrArg some h3.symm

/-- With every move succeeding and the desired ids a permutation of the
candidate playlist, the reorder loop ends with the playlist in desired
order. -/
theorem reorder_correct (desired cand : List String) (hnd : cand.Nodup)
    (hperm : desired ~ cand) :
    (reorderLoop (fun _ _ => true) desired (initState cand)).db = desired := by
  have h := reorder_correct_aux desired [] cand (initState cand) rfl hnd
    (initState_posCons cand) hperm
  simpa [reorderLoop, reorderSteps] using h

/-- The playlist maintained by the loop is exactly the replay of the moves it
records. -/
theorem db_replay (moveOk : String → Nat → Bool) :
    ∀ (items : List (Nat × String)) (st : ReorderState),
      ∃ newMoves,
        (reorderSteps moveOk items st).moves = st.moves ++ newMoves ∧
        (reorderSteps moveOk items st).db
          = applyMoves (newMoves.map (fun m => (m.1, m.2.2))) st.db := by
  intro items
  induction items with
  | nil =>
    intro st
    exact ⟨[], by simp [reorderSteps], by simp [reorderSteps, applyMoves]⟩
  | cons it items ih =>
    intro st
    have hfold : reorderSteps moveOk (it :: items) st
        = reorderSteps moveOk items (reorderStep moveOk st it) := by
      simp [reorderSteps]
    rcases hlk : lookupPos st.pos it.2 with _ | curr
    · have hstep : reorderStep moveOk st it = st := by
        simp [reorderStep, hlk]
      rcases ih st with ⟨nm, h1, h2⟩
      exact ⟨nm, by rw [hfold, hstep]; exact h1, by rw [hfold, hstep]; exact h2⟩
    · by_cases hc : curr = it.1
      · have hstep : reorderStep moveOk st it = st := by
          simp [reorderStep, hlk, hc]
        rcases ih st with ⟨nm, h1, h2⟩
        exact ⟨nm, by rw [hfold, hstep]; exact h1, by rw [hfold, hstep]; exact h2⟩
      · by_cases hok : moveOk it.2 it.1
        · have hstep : reorderStep moveOk st it =
              { pos := posAfterMove st.pos it.2 curr it.1
                db := moveSlot st.db it.2 it.1
                moves := st.moves ++ [(it.2, curr, it.1)] } := by
            simp [reorderStep, hlk, hc, hok]
          rcases ih { pos := posAfterMove st.pos it.2 curr it.1
                      db := moveSlot st.db it.2 it.1
                      moves := st.moves ++ [(it.2, curr, it.1)] } with ⟨nm, h1, h2⟩
          refine ⟨(it.2, curr, it.1) :: nm, ?_, ?_⟩
          · rw [hfold, hstep, h1]
            simp
          · rw [hfold, hstep, h2]
            simp [applyMoves]
        · have hstep : reorderStep moveOk st it = st := by
            simp [reorderStep, hlk, hc, hok]
          rcases ih st with ⟨nm, h1, h2⟩
          exact ⟨nm, by rw [hfold, hstep]; exact h1, by rw [hfold, hstep]; exact h2⟩

/-- A minimal record for concrete instances: only the slot id and the base
track number matter to the reorder planner. -/
def sampleRec (cid : Nat) (sid : String) (tno : Int) : Rec :=
  { content_id := cid, song_pl_id := sid, artist_norm := "", title_norm := "",
    fb_norm := none, label := "", track_no := tno, hot_cues := 0, hot_cue_ms := [] }

/-- Five matched pairs whose base track numbers are 1..5 and whose candidate
slot ids are "1".."5". -/
def reorderCexMatches : List (Rec × Rec) :=
  [(sampleRec 1 "b1" 1, sampleRec 11 "1" 0),
   (sampleRec 2 "b2" 2, sampleRec 12 "2" 0),
   (sampleRec 3 "b3" 3, sampleRec 13 "3" 0),
   (sampleRec 4 "b4" 4, sampleRec 14 "4" 0),
   (sampleRec 5 "b5" 5, sampleRec 15 "5" 0)]

/-- C1 counterexample: on candidate order ["5","1","2","3","4"] the reorder
procedure performs 4 moves, yet the single move "slot 5 to position 5"
already transforms the candidate ordering into the base ordering — so the
computed sequence is not minimal. -/
theorem reorder_minimal_claim_false :
    desiredIds reorderCexMatches = ["1", "2", "3", "4", "5"] ∧
    (reorderLoop (fun _ _ => true) (desiredIds reorderCexMatches)
      (initState ["5", "1", "2", "3", "4"])).moves.length = 4 ∧
    applyMoves [("5", 5)] ["5", "1", "2", "3", "4"] = desiredIds reorderCexMatches ∧
    (1 : Nat) < 4 := by
  decide

/-- C1 (amended): for every sequence of matched pairs and every initial
candidate ordering (with distinct slot ids, the desired slots being exactly
the candidate slots, and all moves succeeding), the reorder procedure
computes a sequence of single-item moves that transforms the candidate
list's ordering into the base list's ordering — the final playlist order
equals the desired order, and replaying the recorded moves from the initial
candidate order also yields it.  The sequence need not be minimal. -/
theorem reorder_transforms_ordering (mts : List (Rec × Rec)) (cand_ids : List String)
    (hnd : cand_ids.Nodup) (hperm : desiredIds mts ~ cand_ids) :
    (reorderLoop (fun _ _ => true) (desiredIds mts) (initState cand_ids)).db
        = desiredIds mts ∧
    applyMoves (((reorderLoop (fun _ _ => true) (desiredIds mts)
        (initState cand_ids)).moves).map (fun m => (m.1, m.2.2))) cand_ids
      = desiredIds mts := by
  have hdb := reorder_correct (desiredIds mts) cand_ids hnd hperm
  refine ⟨hdb, ?_⟩
  rcases db_replay (fun _ _ => true) (List.enumFrom 1 (desiredIds mts))
    (initState cand_ids) with ⟨nm, h1, h2⟩
  have hmv : (reorderLoop (fun _ _ => true) (desiredIds mts) (initState cand_ids)).moves
      = nm := by
    simpa [reorderLoop, initState] using h1
  rw [hmv]
  have h2' : (reorderLoop (fun _ _ => true) (desiredIds mts) (initState cand_ids)).db
      = applyMoves (nm.map (fun m => (m.1, m.2.2))) cand_ids := h2
  rw [← h2']
  exact hdb

/-- C1 witness: the amended theorem applied at the concrete counterexample
instance. -/
theorem reorder_transforms_ordering_witness :
    (["5", "1", "2", "3", "4"] : List String).Nodup ∧
    desiredIds reorderCexMatches ~ ["5", "1", "2", "3", "4"] ∧
    (reorderLoop (fun _ _ => true) (desiredIds reorderCexMatches)
      (initState ["5", "1", "2", "3", "4"])).db = desiredIds reorderCexMatches :=
  ⟨by decide, by decide,
   (reorder_transforms_ordering reorderCexMatches ["5", "1", "2", "3", "4"]
     (by decide) (by decide)).1⟩

/-- An aligned candidate (desired order is a prefix of the playlist) makes
the reorder loop a no-op: no moves are recorded. -/
theorem aligned_no_moves (D cand : List String) (moveOk : String → Nat → Bool)
    (hnd : cand.Nodup) (hpre : cand.take D.length = D) :
    (reorderLoop moveOk D (initState cand)).moves = [] := by
  have hlen : D.length ≤ cand.length := by
    have hc := congrArg List.length hpre
    rw [List.length_take] at hc
    omega
  have halign : ∀ (m : Nat) (hm : m < D.length),
      lookupPos (initState cand).pos (D.get ⟨m, hm⟩) = some (0 + 1 + m) := by
    intro m hm
    have hmc : m < cand.length := by omega
    have hD : D.get ⟨m, hm⟩ = cand.get ⟨m, hmc⟩ := by
      have hq : D[m]? = cand[m]? := by
        conv_lhs => rw [← hpre]
        rw [List.getElem?_take]
        simp [hm]
      have hql : D[m]? = some (D.get ⟨m, hm⟩) := by
        rw [List.getElem?_eq_getElem hm, List.get_eq_getElem]
      have hqr : cand[m]? = some (cand.get ⟨m, hmc⟩) := by
        rw [List.getElem?_eq_getElem hmc, List.get_eq_getElem]
      rw [hql, hqr] at hq
      exact Option.some.inj hq
    rw [hD]
    exact init_lookup cand 0 m hmc hnd
  have h := skip_aligned moveOk D 0 (initState cand) halign
  simp only [reorderLoop]
  rw [show (0 : Nat) + 1 = 1 from rfl] at h
  rw [h]
  rfl

/-- C9: the reorder procedure is idempotent.  If the candidate ordering
already realizes the desired order (the desired slot ids are a prefix of the
candidate playlist), the procedure performs zero moves — for any behavior of
the external move operation; consequently, re-running the procedure right
after a successful run (same matches, candidate as left by the first run)
performs zero moves. -/
theorem reorder_idempotent (mts : List (Rec × Rec)) (cand_ids : List String)
    (moveOk : String → Nat → Bool) (hnd : cand_ids.Nodup) :
    (cand_ids.take (desiredIds mts).length = desiredIds mts →
      (reorderLoop moveOk (desiredIds mts) (initState cand_ids)).moves = []) ∧
    (desiredIds mts ~ cand_ids →
      (reorderLoop moveOk (desiredIds mts)
        (initState ((reorderLoop (fun _ _ => true) (desiredIds mts)
          (initState cand_ids)).db))).moves = []) := by
  constructor
  · intro hpre
    exact aligned_no_moves (desiredIds mts) cand_ids moveOk hnd hpre
  · intro hperm
    rw [reorder_correct (desiredIds mts) cand_ids hnd hperm]
    exact aligned_no_moves (desiredIds mts) (desiredIds mts) moveOk
      (hperm.nodup_iff.mpr hnd) (List.take_length _)

/-- C9 witness: on an already-aligned five-slot candidate the loop records no
moves, and the rerun after a successful run also records none. -/
theorem reorder_idempotent_witness :
    (reorderLoop (fun _ _ => true) (desiredIds reorderCexMatches)
      (initState ["1", "2", "3", "4", "5"])).moves = [] ∧
    (reorderLoop (fun _ _ => true) (desiredIds reorderCexMatches)
      (initState ((reorderLoop (fun _ _ => true) (desiredIds reorderCexMatches)
        (initState ["5", "1", "2", "3", "4"])).db))).moves = [] :=
  ⟨(reorder_idempotent reorderCexMatches ["1", "2", "3", "4", "5"]
      (fun _ _ => true) (by decide)).1 (by decide),
   (reorder_idempotent reorderCexMatches ["5", "1", "2", "3", "4"]
      (fun _ _ => true) (by decide)).2 (by decide)⟩

/-! ## Matcher (`_match`, lines 176-218) -/

/-- Buckets of candidate indices keyed by a string (the `defaultdict(list)`
of `_index_many`), embedded as an association list; `_index_many` only ever
creates one bucket per key. -/
abbrev Buckets : Type := List (String × List Nat)

/-- `d[key_fn(i)].append(i)` under `defaultdict(list)` (line 182). -/
def bucketsAdd (b : Buckets) (k : String) (i : Nat) : Buckets :=
  if ((List.find? (fun kv => kv.1 = k) b).isSome : Bool) then
    List.map (fun kv => if kv.1 = k then (kv.1, kv.2 ++ [i]) else kv) b
  else b ++ [(k, [i])]

/-- `_index_many(values, key_fn)` (lines 178-183): bucket each value under
its key, skipping values with a falsy (empty) key. -/
def indexMany (values : List Nat) (key : Nat → String) : Buckets :=
  values.foldl (fun b i => if key i = "" then b else bucketsAdd b (key i) i) []

/-- `_pop(buckets, k)` (lines 185-187): `arr = buckets.get(k); if arr:
return arr.pop()` — the bucket's last element is removed and returned;
an absent or empty bucket yields `None` and leaves the buckets unchanged. -/
def popBucket (b : Buckets) (k : String) : Option Nat × Buckets :=
  match List.find? (fun kv => kv.1 = k) b with
  | none => (none, b)
  | some kv =>
      match kv.2.getLast? with
      | none => (none, b)
      | some j =>
          (some j, List.map (fun kv2 => if kv2.1 = k then (kv2.1, kv2.2.dropLast) else kv2) b)

/-- Matching state of `_match`: the `used_b` / `used_c` flag arrays and the
accumulated matches as index pairs. -/
structure MState where
  used_b : List Bool
  used_c : List Bool
  matches_idx : List (Nat × Nat)
deriving Repr, DecidableEq

/-- `cand_idx()` (line 195): currently unmatched candidate indices. -/
def candIdx (st : MState) : List Nat :=
  (List.range st.used_c.length).filter (fun i => !(st.used_c.getD i false))

/-- One iteration of a matching pass (lines 198-201, 204-207, 211-214) for
base index `i`: skip used (or key-less) base records, otherwise pop a
candidate for the base key and mark both sides used. -/
def passStep (keyB : Nat → String) (skipB : Nat → Bool)
    (acc : Buckets × MState) (i : Nat) : Buckets × MState :=
  if acc.2.used_b.getD i false || skipB i then acc
  else
    match popBucket acc.1 (keyB i) with
    | (none, b2) => (b2, acc.2)
    | (some j, b2) =>
        (b2, { used_b := acc.2.used_b.set i true
               used_c := acc.2.used_c.set j true
               matches_idx := acc.2.matches_idx ++ [(i, j)] })

/-- One pass of `_match`: index the still-unmatched candidates by key, then
sweep the base indices in order. -/
def runPass (keyC : Nat → String) (keyB : Nat → String) (skipB : Nat → Bool)
    (nb : Nat) (st : MState) : MState :=
  ((List.range nb).foldl (passStep keyB skipB) (indexMany (candIdx st) keyC, st)).2

/-- Pass-1 key (lines 197, 200): `f"{artist_norm}|{title_norm}"`. -/
def pass1Key (r : Rec) : String := r.artist_norm ++ "|" ++ r.title_norm

/-- Pass-2 key (lines 203, 206): `fb_norm`, with the Python-falsy values
(`None` and the empty string) both mapped to `""`. -/
def pass2Key (r : Rec) : String := r.fb_norm.getD ""

/-- `_match` at the index level (lines 189-215): pass 1 on artist|title,
pass 2 on the filename key (skipping base records without one), optional
pass 3 on the bare title. -/
def matchIdx (base cand : List Rec) (title_fb : Bool) : MState :=
  let st0 : MState :=
    ⟨List.replicate base.length false, List.replicate cand.length false, []⟩
  let st1 := runPass (fun i => pass1Key (cand.getD i default))
    (fun i => pass1Key (base.getD i default)) (fun _ => false) base.length st0
  let st2 := runPass (fun i => pass2Key (cand.getD i default))
    (fun i => pass2Key (base.getD i default))
    (fun i => decide (pass2Key (base.getD i default) = "")) base.length st1
  if title_fb then
    runPass (fun i => (cand.getD i default).title_norm)
      (fun i => (base.getD i default).title_norm) (fun _ => false) base.length st2
  else st2

/-- `_match(base, cand, title_fb)` (lines 189-218): matched record pairs in
match order, `missing` (unmatched base records in base order), `extra`
(unmatched candidate records in candidate order). -/
def matchRecs (base cand : List Rec) (title_fb : Bool) :
    List (Rec × Rec) × List Rec × List Rec :=
  let st := matchIdx base cand title_fb
  (st.matches_idx.map (fun ij => (base.getD ij.1 default, cand.getD ij.2 default)),
   (List.range base.length).filterMap
     (fun i => if st.used_b.getD i false then none else some (base.getD i default)),
   (List.range cand.length).filterMap
     (fun j => if st.used_c.getD j false then none else some (cand.getD j default)))

/-! ### Bucket lemmas -/

/-- All candidate indices stored across the buckets, in bucket order. -/
def bucketIdx (b : Buckets) : List Nat := (b.map (fun kv => kv.2)).flatten

/-- The bucket keys are pairwise distinct (a Python dict invariant). -/
def keysNodup (b : Buckets) : Prop := (b.map Prod.fst).Nodup

theorem bucketIdx_append (b1 b2 : Buckets) :
    bucketIdx (b1 ++ b2) = bucketIdx b1 ++ bucketIdx b2 := by
  simp [bucketIdx]

theorem bucketIdx_cons (kv : String × List Nat) (b : Buckets) :
    bucketIdx (kv :: b) = kv.2 ++ bucketIdx b := by
  simp [bucketIdx]

/-- Appending an index under a key adds exactly that index (as a multiset)
when keys are distinct. -/
theorem bucketsAdd_perm (b : Buckets) (k : String) (i : Nat) (hk : keysNodup b) :
    bucketIdx (bucketsAdd b k i) ~ i :: bucketIdx b ∧ keysNodup (bucketsAdd b k i) := by
  by_cases hfind : (List.find? (fun kv => kv.1 = k) b).isSome
  · rcases Option.isSome_iff_exists.mp hfind with ⟨kv0, hkv0⟩
    rcases List.find?_eq_some.mp hkv0 with ⟨hpk, b1, b2, hsplit, hb1⟩
    have hk0 : kv0.1 = k := by simpa using hpk
    have hkeys : (b.map Prod.fst).Nodup := hk
    rw [hsplit] at hkeys
    have hknotb2 : ∀ kv ∈ b2, ¬ (kv.1 = k) := by
      intro kv hkv hEq
      have h1 : kv0.1 ∈ (b1.map Prod.fst) ++ kv0.1 :: b2.map Prod.fst := by
        simp
      have hnd2 := hkeys
      rw [List.map_append, List.map_cons] at hnd2
      rcases List.nodup_append.mp hnd2 with ⟨_, hnd3, _⟩
      have := (List.nodup_cons.mp hnd3).1
      exact this (by
        rw [hk0, ← hEq]
        exact List.mem_map_of_mem Prod.fst hkv)
    have hmap : List.map (fun kv => if kv.1 = k then (kv.1, kv.2 ++ [i]) else kv) b
        = b1 ++ (kv0.1, kv0.2 ++ [i]) :: b2 := by
      rw [hsplit, List.map_append, List.map_cons]
      congr 1
      · have hcong : List.map (fun kv => if kv.1 = k then (kv.1, kv.2 ++ [i]) else kv) b1
            = List.map id b1 := by
          apply List.map_congr_left
          intro kv hkv
          have h := hb1 kv hkv
          simp only [Bool.not_eq_true', decide_eq_false_iff_not] at h
          simp [h]
        rw [hcong, List.map_id]
      · congr 1
        · simp [hk0]
        · have hcong : List.map (fun kv => if kv.1 = k then (kv.1, kv.2 ++ [i]) else kv) b2
              = List.map id b2 := by
            apply List.map_congr_left
            intro kv hkv
            simp [hknotb2 kv hkv]
          rw [hcong, List.map_id]
    constructor
    · rw [bucketsAdd, if_pos hfind, hmap, bucketIdx_append, bucketIdx_cons, hsplit,
        bucketIdx_append, bucketIdx_cons]
      calc bucketIdx b1 ++ ((kv0.2 ++ [i]) ++ bucketIdx b2)
          ~ bucketIdx b1 ++ ((i :: kv0.2) ++ bucketIdx b2) :=
            List.Perm.append_left _
              (List.Perm.append_right _ (List.perm_append_singleton i kv0.2))
        _ = bucketIdx b1 ++ i :: (kv0.2 ++ bucketIdx b2) := by simp
        _ ~ i :: (bucketIdx b1 ++ (kv0.2 ++ bucketIdx b2)) := List.perm_middle
    · rw [bucketsAdd, if_pos hfind]
      have : (List.map (fun kv => if kv.1 = k then (kv.1, kv.2 ++ [i]) else kv) b).map Prod.fst
          = b.map Prod.fst := by
        rw [List.map_map]
        apply List.map_congr_left
        intro kv _
        by_cases h : kv.1 = k <;> simp [h]
      unfold keysNodup
      rw [this]
      exact hk
  · have hknotb : k ∉ b.map Prod.fst := by
      intro hmem
      rcases List.mem_map.mp hmem with ⟨kv, hkv, hEq⟩
      have : (List.find? (fun kv => kv.1 = k) b).isSome :=
        List.find?_isSome.mpr ⟨kv, hkv, by simp [hEq]⟩
      exact hfind this
    constructor
    · rw [bucketsAdd, if_neg hfind, bucketIdx_append]
      have hone : bucketIdx [(k, [i])] = [i] := by
        simp [bucketIdx]
      rw [hone]
      exact List.perm_append_singleton i (bucketIdx b)
    · rw [bucketsAdd, if_neg hfind]
      unfold keysNodup
      rw [List.map_append]
      simp only [List.map_cons, List.map_nil]
      rw [List.nodup_append]
      exact ⟨hk, by simp, by
        intro a ha hb
        simp only [List.mem_singleton] at hb
        exact hknotb (hb ▸ ha)⟩

theorem indexMany_spec (key : Nat → String) :
    ∀ (values : List Nat) (b0 : Buckets), keysNodup b0 →
      bucketIdx (values.foldl
          (fun b i => if key i = "" then b else bucketsAdd b (key i) i) b0)
        ~ bucketIdx b0 ++ values.filter (fun i => !decide (key i = "")) ∧
      keysNodup (values.foldl
          (fun b i => if key i = "" then b else bucketsAdd b (key i) i) b0) := by
  intro values
  induction values with
  | nil =>
    intro b0 hk
    constructor
    · simp
    · exact hk
  | cons v vs ih =>
    intro b0 hk
    rw [List.foldl_cons]
    by_cases hv : key v = ""
    · rw [if_pos hv]
      rcases ih b0 hk with ⟨h1, h2⟩
      refine ⟨?_, h2⟩
      rw [List.filter_cons]
      have hcond : (!decide (key v = "")) = false := by simp [hv]
      rw [hcond]
      simp only [Bool.false_eq_true, if_false]
      exact h1
    · rw [if_neg hv]
      rcases bucketsAdd_perm b0 (key v) v hk with ⟨hp, hknd⟩
      rcases ih (bucketsAdd b0 (key v) v) hknd with ⟨h1, h2⟩
      refine ⟨?_, h2⟩
      rw [List.filter_cons]
      have hcond : (!decide (key v = "")) = true := by simp [hv]
      rw [hcond, if_pos rfl]
      calc bucketIdx (vs.foldl
            (fun b i => if key i = "" then b else bucketsAdd b (key i) i)
            (bucketsAdd b0 (key v) v))
          ~ bucketIdx (bucketsAdd b0 (key v) v)
              ++ vs.filter (fun i => !decide (key i = "")) := h1
        _ ~ (v :: bucketIdx b0) ++ vs.filter (fun i => !decide (key i = "")) :=
            List.Perm.append_right _ hp
        _ = v :: (bucketIdx b0 ++ vs.filter (fun i => !decide (key i = ""))) := by simp
        _ ~ bucketIdx b0 ++ v :: vs.filter (fun i => !decide (key i = "")) :=
            List.perm_middle.symm

theorem popBucket_none (b : Buckets) (k : String) (b2 : Buckets)
    (h : popBucket b k = (none, b2)) : b2 = b := by
  unfold popBucket at h
  rcases hf : List.find? (fun kv => kv.1 = k) b with _ | kv
  · rw [hf] at h
    simpa using h.symm
  · rw [hf] at h
    have h2 : (match kv.2.getLast? with
      | none => ((none : Option Nat), b)
      | some j => (some j,
          List.map (fun kv2 => if kv2.1 = k then (kv2.1, kv2.2.dropLast) else kv2) b))
        = (none, b2) := h
    rcases hl : kv.2.getLast? with _ | j
    · rw [hl] at h2
      simpa using h2.symm
    · rw [hl] at h2
      simp at h2

theorem popBucket_some (b : Buckets) (k : String) (j : Nat) (b2 : Buckets)
    (hknd : keysNodup b) (h : popBucket b k = (some j, b2)) :
    bucketIdx b ~ j :: bucketIdx b2 ∧ keysNodup b2 := by
  unfold popBucket at h
  rcases hf : List.find? (fun kv => kv.1 = k) b with _ | kv0
  · rw [hf] at h
    simp at h
  · rw [hf] at h
    have h2 : (match kv0.2.getLast? with
      | none => ((none : Option Nat), b)
      | some j => (some j,
          List.map (fun kv2 => if kv2.1 = k then (kv2.1, kv2.2.dropLast) else kv2) b))
        = (some j, b2) := h
    rcases hl : kv0.2.getLast? with _ | j'
    · rw [hl] at h2
      simp at h2
    · rw [hl] at h2
      simp only [Prod.mk.injEq, Option.some.injEq] at h2
      rcases h2 with ⟨hj, hb2⟩
      rw [hj] at hl
      rcases List.find?_eq_some.mp hf with ⟨hpk, b1, b2', hsplit, hb1⟩
      have hk0 : kv0.1 = k := by simpa using hpk
      have hkeys := hknd
      unfold keysNodup at hkeys
      rw [hsplit] at hkeys
      have hknotb2 : ∀ kv ∈ b2', ¬ (kv.1 = k) := by
        intro kv hkv hEq
        rw [List.map_append, List.map_cons] at hkeys
        rcases List.nodup_append.mp hkeys with ⟨_, hnd3, _⟩
        exact (List.nodup_cons.mp hnd3).1 (by
          rw [hk0, ← hEq]
          exact List.mem_map_of_mem Prod.fst hkv)
      have hmap : List.map (fun kv2 => if kv2.1 = k then (kv2.1, kv2.2.dropLast) else kv2) b
          = b1 ++ (kv0.1, kv0.2.dropLast) :: b2' := by
        rw [hsplit, List.map_append, List.map_cons]
        congr 1
        · have hcong : List.map (fun kv2 => if kv2.1 = k then (kv2.1, kv2.2.dropLast) else kv2) b1
              = List.map id b1 := by
            apply List.map_congr_left
            intro kv hkv
            have hne := hb1 kv hkv
            simp only [Bool.not_eq_true', decide_eq_false_iff_not] at hne
            simp [hne]
          rw [hcong, List.map_id]
        · congr 1
          · simp [hk0]
          · have hcong : List.map (fun kv2 => if kv2.1 = k then (kv2.1, kv2.2.dropLast) else kv2) b2'
                = List.map id b2' := by
              apply List.map_congr_left
              intro kv hkv
              simp [hknotb2 kv hkv]
            rw [hcong, List.map_id]
      have hne0 : kv0.2 ≠ [] := by
        intro hE
        rw [hE] at hl
        simp at hl
      have hjlast : kv0.2.getLast hne0 = j := by
        rw [List.getLast?_eq_getLast kv0.2 hne0] at hl
        injection hl
      have hsplit2 : kv0.2.dropLast ++ [j] = kv0.2 := by
        rw [← hjlast]
        exact List.dropLast_append_getLast hne0
      constructor
      · rw [← hb2, hmap, hsplit, bucketIdx_append, bucketIdx_cons,
          bucketIdx_append, bucketIdx_cons]
        calc bucketIdx b1 ++ (kv0.2 ++ bucketIdx b2')
            = bucketIdx b1 ++ ((kv0.2.dropLast ++ [j]) ++ bucketIdx b2') := by rw [hsplit2]
          _ ~ bucketIdx b1 ++ ((j :: kv0.2.dropLast) ++ bucketIdx b2') :=
              List.Perm.append_left _
                (List.Perm.append_right _ (List.perm_append_singleton j kv0.2.dropLast))
          _ = bucketIdx b1 ++ j :: (kv0.2.dropLast ++ bucketIdx b2') := by simp
          _ ~ j :: (bucketIdx b1 ++ (kv0.2.dropLast ++ bucketIdx b2')) := List.perm_middle
      · rw [← hb2]
        unfold keysNodup
        have : (List.map (fun kv2 => if kv2.1 = k then (kv2.1, kv2.2.dropLast) else kv2) b).map Prod.fst
            = b.map Prod.fst := by
          rw [List.map_map]
          apply List.map_congr_left
          intro kv _
          by_cases hkk : kv.1 = k <;> simp [hkk]
        rw [this]
        exact hknd

theorem getD_set_self (l : List Bool) (i : Nat) (hi : i < l.length) :
    (l.set i true).getD i false = true := by
  simp [List.getD, List.getElem?_set, hi]

theorem getD_set_ne (l : List Bool) (i x : Nat) (hx : ¬ (i = x)) :
    (l.set i true).getD x false = l.getD x false := by
  simp [List.getD, List.getElem?_set, hx]

theorem getD_replicate_false (n x : Nat) :
    (List.replicate n false).getD x false = false := by
  by_cases hx : x < n
  · simp [List.getD, List.getElem?_replicate, hx]
  · simp [List.getD, List.getElem?_replicate, hx]

/-! ### Pass invariants -/

/-- Well-formedness of the matching state: flag arrays of the right length,
match components pairwise distinct, and the used flags characterize exactly
the matched indices. -/
def WF (nb nc : Nat) (st : MState) : Prop :=
  st.used_b.length = nb ∧ st.used_c.length = nc ∧
  (st.matches_idx.map Prod.fst).Nodup ∧ (st.matches_idx.map Prod.snd).Nodup ∧
  (∀ x, x ∈ st.matches_idx.map Prod.fst ↔ (x < nb ∧ st.used_b.getD x false = true)) ∧
  (∀ x, x ∈ st.matches_idx.map Prod.snd ↔ (x < nc ∧ st.used_c.getD x false = true))

/-- Bucket invariant during a pass: distinct keys, distinct stored indices,
and every stored index is an in-range, not-yet-used candidate index. -/
def BInv (nc : Nat) (used_c : List Bool) (b : Buckets) : Prop :=
  keysNodup b ∧ (bucketIdx b).Nodup ∧
  ∀ j ∈ bucketIdx b, j < nc ∧ used_c.getD j false = false

theorem passStep_eq (keyB : Nat → String) (skipB : Nat → Bool)
    (b : Buckets) (st : MState) (i : Nat) :
    passStep keyB skipB (b, st) i =
      if st.used_b.getD i false || skipB i then (b, st)
      else match popBucket b (keyB i) with
        | (none, b2) => (b2, st)
        | (some j, b2) =>
            (b2, { used_b := st.used_b.set i true
                   used_c := st.used_c.set j true
                   matches_idx := st.matches_idx ++ [(i, j)] }) := rfl

theorem passStep_inv (nb nc : Nat) (keyB : Nat → String) (skipB : Nat → Bool)
    (b : Buckets) (st : MState) (i : Nat) (hi : i < nb)
    (hWF : WF nb nc st) (hB : BInv nc st.used_c b) :
    WF nb nc (passStep keyB skipB (b, st) i).2 ∧
    BInv nc (passStep keyB skipB (b, st) i).2.used_c (passStep keyB skipB (b, st) i).1 := by
  rcases hWF with ⟨hlb, hlc, hndf, hnds, hmf, hms⟩
  rcases hB with ⟨hknd, hbnd, hbmem⟩
  by_cases hskip : st.used_b.getD i false || skipB i
  · have hstep : passStep keyB skipB (b, st) i = (b, st) := by
      rw [passStep_eq, if_pos hskip]
    rw [hstep]
    exact ⟨⟨hlb, hlc, hndf, hnds, hmf, hms⟩, hknd, hbnd, hbmem⟩
  · rcases hpop : popBucket b (keyB i) with ⟨r, b2⟩
    rcases r with _ | j
    · have hb2 : b2 = b := popBucket_none b (keyB i) b2 hpop
      have hstep : passStep keyB skipB (b, st) i = (b2, st) := by
        rw [passStep_eq, if_neg hskip, hpop]
      rw [hstep, hb2]
      exact ⟨⟨hlb, hlc, hndf, hnds, hmf, hms⟩, hknd, hbnd, hbmem⟩
    · rcases popBucket_some b (keyB i) j b2 hknd hpop with ⟨hperm, hknd2⟩
      have hjmem : j ∈ bucketIdx b := hperm.mem_iff.mpr (List.mem_cons_self _ _)
      rcases hbmem j hjmem with ⟨hjnc, hjun⟩
      have hiun : st.used_b.getD i false = false := by
        rcases Bool.or_eq_false_iff.mp (Bool.of_not_eq_true hskip) with ⟨h1, _⟩
        exact h1
      have hstep : passStep keyB skipB (b, st) i =
          (b2, { used_b := st.used_b.set i true
                 used_c := st.used_c.set j true
                 matches_idx := st.matches_idx ++ [(i, j)] }) := by
        rw [passStep_eq, if_neg hskip, hpop]
      rw [hstep]
      have hnodup2 : (bucketIdx b2).Nodup ∧ j ∉ bucketIdx b2 := by
        have := hperm.nodup_iff.mp hbnd
        rcases List.nodup_cons.mp this with ⟨h1, h2⟩
        exact ⟨h2, h1⟩
      have hinew : i ∉ st.matches_idx.map Prod.fst := by
        intro hmem
        have := (hmf i).mp hmem
        rw [hiun] at this
        exact absurd this.2 (by simp)
      have hjnew : j ∉ st.matches_idx.map Prod.snd := by
        intro hmem
        have := (hms j).mp hmem
        rw [hjun] at this
        exact absurd this.2 (by simp)
      refine ⟨⟨by simpa using hlb, by simpa using hlc, ?_, ?_, ?_, ?_⟩, hknd2, hnodup2.1, ?_⟩
      · rw [List.map_append]
        rw [List.nodup_append]
        exact ⟨hndf, by simp, by
          intro a ha hb
          simp only [List.map_cons, List.map_nil, List.mem_singleton] at hb
          exact hinew (hb ▸ ha)⟩
      · rw [List.map_append]
        rw [List.nodup_append]
        exact ⟨hnds, by simp, by
          intro a ha hb
          simp only [List.map_cons, List.map_nil, List.mem_singleton] at hb
          exact hjnew (hb ▸ ha)⟩
      · intro x
        rw [List.map_append]
        simp only [List.mem_append, List.map_cons, List.map_nil, List.mem_singleton]
        constructor
        · intro hx
          rcases hx with hx | hx
          · rcases (hmf x).mp hx with ⟨h1, h2⟩
            refine ⟨h1, ?_⟩
            by_cases hxi : i = x
            · rw [← hxi]
              exact getD_set_self st.used_b i (by omega)
            · rw [getD_set_ne st.used_b i x hxi]
              exact h2
          · rw [hx]
            exact ⟨hi, getD_set_self st.used_b i (by omega)⟩
        · rintro ⟨h1, h2⟩
          by_cases hxi : i = x
          · right; exact hxi.symm
          · left
            rw [getD_set_ne st.used_b i x hxi] at h2
            exact (hmf x).mpr ⟨h1, h2⟩
      · intro x
        rw [List.map_append]
        simp only [List.mem_append, List.map_cons, List.map_nil, List.mem_singleton]
        constructor
        · intro hx
          rcases hx with hx | hx
          · rcases (hms x).mp hx with ⟨h1, h2⟩
            refine ⟨h1, ?_⟩
            by_cases hxj : j = x
            · rw [← hxj]
              exact getD_set_self st.used_c j (by omega)
            · rw [getD_set_ne st.used_c j x hxj]
              exact h2
          · rw [hx]
            exact ⟨hjnc, getD_set_self st.used_c j (by omega)⟩
        · rintro ⟨h1, h2⟩
          by_cases hxj : j = x
          · right; exact hxj.symm
          · left
            rw [getD_set_ne st.used_c j x hxj] at h2
            exact (hms x).mpr ⟨h1, h2⟩
      · intro x hx
        have hxb : x ∈ bucketIdx b := hperm.mem_iff.mpr (List.mem_cons_of_mem _ hx)
        rcases hbmem x hxb with ⟨hxnc, hxun⟩
        refine ⟨hxnc, ?_⟩
        have hxj : ¬ (j = x) := by
          intro hEq
          exact hnodup2.2 (hEq ▸ hx)
        rw [getD_set_ne st.used_c j x hxj]
        exact hxun

theorem foldSteps_inv (nb nc : Nat) (keyB : Nat → String) (skipB : Nat → Bool) :
    ∀ (is_ : List Nat) (b : Buckets) (st : MState),
      (∀ i ∈ is_, i < nb) → WF nb nc st → BInv nc st.used_c b →
      WF nb nc ((is_.foldl (passStep keyB skipB) (b, st)).2) ∧
      BInv nc ((is_.foldl (passStep keyB skipB) (b, st)).2.used_c)
        ((is_.foldl (passStep keyB skipB) (b, st)).1) := by
  intro is_
  induction is_ with
  | nil => intro b st _ hWF hB; exact ⟨hWF, hB⟩
  | cons i is_ ih =>
    intro b st hmem hWF hB
    rw [List.foldl_cons]
    rcases passStep_inv nb nc keyB skipB b st i (hmem i (List.mem_cons_self _ _)) hWF hB
      with ⟨hWF2, hB2⟩
    have hres := ih (passStep keyB skipB (b, st) i).1 (passStep keyB skipB (b, st) i).2
      (fun x hx => hmem x (List.mem_cons_of_mem _ hx)) hWF2 hB2
    simpa using hres

/-- A fresh pass preserves well-formedness. -/
theorem runPass_WF (nb nc : Nat) (keyC keyB : Nat → String) (skipB : Nat → Bool)
    (st : MState) (hWF : WF nb nc st) :
    WF nb nc (runPass keyC keyB skipB nb st) := by
  have hlc : st.used_c.length = nc := hWF.2.1
  have hcand_nodup : (candIdx st).Nodup :=
    (List.nodup_range _).filter _
  have hcand_mem : ∀ j ∈ candIdx st, j < nc ∧ st.used_c.getD j false = false := by
    intro j hj
    rcases List.mem_filter.mp hj with ⟨hjr, hju⟩
    have hjlen : j < st.used_c.length := List.mem_range.mp hjr
    exact ⟨by omega, by simpa using hju⟩
  have hidx := indexMany_spec keyC (candIdx st) [] (by simp [keysNodup])
  have hB : BInv nc st.used_c (indexMany (candIdx st) keyC) := by
    have hperm2 : bucketIdx (indexMany (candIdx st) keyC)
        ~ (candIdx st).filter (fun i => !decide (keyC i = "")) := by
      have h := hidx.1
      simpa [indexMany, bucketIdx] using h
    have hknd : keysNodup (indexMany (candIdx st) keyC) := hidx.2
    refine ⟨hknd, ?_, ?_⟩
    · exact hperm2.nodup_iff.mpr (hcand_nodup.filter _)
    · intro j hj
      have hj2 : j ∈ (candIdx st).filter (fun i => !decide (keyC i = "")) :=
        hperm2.mem_iff.mp hj
      exact hcand_mem j (List.mem_filter.mp hj2).1
  have hres := foldSteps_inv nb nc keyB skipB (List.range nb)
    (indexMany (candIdx st) keyC) st
    (fun i hi => List.mem_range.mp hi) hWF hB
  exact hres.1

theorem replicate_WF (nb nc : Nat) :
    WF nb nc ⟨List.replicate nb false, List.replicate nc false, []⟩ := by
  refine ⟨by simp, by simp, by simp, by simp, ?_, ?_⟩
  · intro x
    simp [getD_replicate_false]
  · intro x
    simp [getD_replicate_false]

theorem matchIdx_WF (base cand : List Rec) (tf : Bool) :
    WF base.length cand.length (matchIdx base cand tf) := by
  have h0 : WF base.length cand.length
      ⟨List.replicate base.length false, List.replicate cand.length false, []⟩ :=
    replicate_WF base.length cand.length
  have h1 := runPass_WF base.length cand.length
    (fun i => pass1Key (cand.getD i default)) (fun i => pass1Key (base.getD i default))
    (fun _ => false) _ h0
  have h2 := runPass_WF base.length cand.length
    (fun i => pass2Key (cand.getD i default)) (fun i => pass2Key (base.getD i default))
    (fun i => decide (pass2Key (base.getD i default) = "")) _ h1
  cases tf with
  | false => exact h2
  | true =>
    exact runPass_WF base.length cand.length
      (fun i => (cand.getD i default).title_norm)
      (fun i => (base.getD i default).title_norm)
      (fun _ => false) _ h2

theorem filterMap_if_eq_filter_map {α β : Type} (p : α → Bool) (f : α → β) :
    ∀ l : List α,
      l.filterMap (fun i => if p i then none else some (f i))
        = (l.filter (fun i => !p i)).map f := by
  intro l
  induction l with
  | nil => rfl
  | cons a l ih =>
    rw [List.filterMap_cons, List.filter_cons]
    by_cases hp : p a
    · simp only [hp, Bool.not_true, Bool.false_eq_true, if_false]
      exact ih
    · have hp' : p a = false := Bool.of_not_eq_true hp
      simp only [hp', Bool.not_false, if_true, Bool.false_eq_true, if_false]
      rw [List.map_cons, ih]

theorem map_getD_range_rec (l : List Rec) :
    (List.range l.length).map (fun i => l.getD i default) = l := by
  apply List.ext_getElem
  · simp
  · intro n h1 h2
    rw [List.getElem_map, List.getElem_range]
    exact List.getD_eq_getElem l default h2

/-- C2: `_match` partitions both inputs exactly: the base components of the
matches together with `missing` are a permutation of `base`, and the
candidate components together with `extra` are a permutation of `cand` —
so with distinct records, every base record appears exactly once in either
the matches or `missing`, and every candidate record exactly once in either
the matches or `extra`, for every value of the title-fallback flag. -/
theorem match_partitions (base cand : List Rec) (title_fb : Bool) :
    ((matchRecs base cand title_fb).1.map Prod.fst
        ++ (matchRecs base cand title_fb).2.1) ~ base ∧
    ((matchRecs base cand title_fb).1.map Prod.snd
        ++ (matchRecs base cand title_fb).2.2) ~ cand := by
  rcases matchIdx_WF base cand title_fb with ⟨hlb, hlc, hndf, hnds, hmf, hms⟩
  constructor
  · have hgoal : ((matchRecs base cand title_fb).1.map Prod.fst
        ++ (matchRecs base cand title_fb).2.1)
        = (((matchIdx base cand title_fb).matches_idx.map Prod.fst)
            ++ (List.range base.length).filter
              (fun i => !((matchIdx base cand title_fb).used_b.getD i false))).map
          (fun i => base.getD i default) := by
      rw [List.map_append]
      congr 1
      · show ((matchIdx base cand title_fb).matches_idx.map
            (fun ij => (base.getD ij.1 default, cand.getD ij.2 default))).map Prod.fst
          = ((matchIdx base cand title_fb).matches_idx.map Prod.fst).map
            (fun i => base.getD i default)
        rw [List.map_map, List.map_map]
        apply List.map_congr_left
        intro ij _
        rfl
      · show (List.range base.length).filterMap
            (fun i => if (matchIdx base cand title_fb).used_b.getD i false then none
                      else some (base.getD i default))
          = ((List.range base.length).filter
              (fun i => !((matchIdx base cand title_fb).used_b.getD i false))).map
            (fun i => base.getD i default)
        exact filterMap_if_eq_filter_map _ _ _
    rw [hgoal]
    have hidxf : (matchIdx base cand title_fb).matches_idx.map Prod.fst
        ~ (List.range base.length).filter
            (fun i => (matchIdx base cand title_fb).used_b.getD i false) := by
      rw [List.perm_ext_iff_of_nodup hndf ((List.nodup_range _).filter _)]
      intro a
      rw [List.mem_filter, List.mem_range]
      constructor
      · intro h
        rcases (hmf a).mp h with ⟨h1, h2⟩
        exact ⟨h1, by simpa using h2⟩
      · rintro ⟨h1, h2⟩
        exact (hmf a).mpr ⟨h1, by simpa using h2⟩
    have hperm2 : (((matchIdx base cand title_fb).matches_idx.map Prod.fst)
        ++ (List.range base.length).filter
          (fun i => !((matchIdx base cand title_fb).used_b.getD i false)))
        ~ List.range base.length :=
      (List.Perm.append_right _ hidxf).trans (List.filter_append_perm _ _)
    have hmapped := hperm2.map (fun i => base.getD i default)
    rw [map_getD_range_rec] at hmapped
    exact hmapped
  · have hgoal : ((matchRecs base cand title_fb).1.map Prod.snd
        ++ (matchRecs base cand title_fb).2.2)
        = (((matchIdx base cand title_fb).matches_idx.map Prod.snd)
            ++ (List.range cand.length).filter
              (fun j => !((matchIdx base cand title_fb).used_c.getD j false))).map
          (fun j => cand.getD j default) := by
      rw [List.map_append]
      congr 1
      · show ((matchIdx base cand title_fb).matches_idx.map
            (fun ij => (base.getD ij.1 default, cand.getD ij.2 default))).map Prod.snd
          = ((matchIdx base cand title_fb).matches_idx.map Prod.snd).map
            (fun j => cand.getD j default)
        rw [List.map_map, List.map_map]
        apply List.map_congr_left
        intro ij _
        rfl
      · show (List.range cand.length).filterMap
            (fun j => if (matchIdx base cand title_fb).used_c.getD j false then none
                      else some (cand.getD j default))
          = ((List.range cand.length).filter
              (fun j => !((matchIdx base cand title_fb).used_c.getD j false))).map
            (fun j => cand.getD j default)
        exact filterMap_if_eq_filter_map _ _ _
    rw [hgoal]
    have hidxs : (matchIdx base cand title_fb).matches_idx.map Prod.snd
        ~ (List.range cand.length).filter
            (fun j => (matchIdx base cand title_fb).used_c.getD j false) := by
      rw [List.perm_ext_iff_of_nodup hnds ((List.nodup_range _).filter _)]
      intro a
      rw [List.mem_filter, List.mem_range]
      constructor
      · intro h
        rcases (hms a).mp h with ⟨h1, h2⟩
        exact ⟨h1, by simpa using h2⟩
      · rintro ⟨h1, h2⟩
        exact (hms a).mpr ⟨h1, by simpa using h2⟩
    have hperm2 : (((matchIdx base cand title_fb).matches_idx.map Prod.snd)
        ++ (List.range cand.length).filter
          (fun j => !((matchIdx base cand title_fb).used_c.getD j false)))
        ~ List.range cand.length :=
      (List.Perm.append_right _ hidxs).trans (List.filter_append_perm _ _)
    have hmapped := hperm2.map (fun j => cand.getD j default)
    rw [map_getD_range_rec] at hmapped
    exact hmapped

/-! ### Candidate-order sensitivity of the matcher -/

/-- The candidate record at index `j`. -/
def recOf (cand : List Rec) (j : Nat) : Rec := cand.getD j default

/-- `cand_idx()` as a function of the used array alone. -/
def candIdxU (used_c : List Bool) : List Nat :=
  (List.range used_c.length).filter (fun i => !(used_c.getD i false))

/-- The unmatched candidate records, in candidate order. -/
def unusedRecs (cand : List Rec) (used_c : List Bool) : List Rec :=
  (candIdxU used_c).map (recOf cand)

/-- Reference pass state: matched base flags, the multiset of available
(keyed, unmatched) candidate records, and the matches with the candidate
side resolved to records. -/
structure RState where
  used_b : List Bool
  avail : List Rec
  matchesR : List (Nat × Rec)

/-- Reference pass step: look the base key up among the available records
(unique by the distinct-key hypothesis) instead of in the bucket index. -/
def refStep (key : Rec → String) (keyB : Nat → String) (skipB : Nat → Bool)
    (st : RState) (i : Nat) : RState :=
  if st.used_b.getD i false || skipB i then st
  else match st.avail.find? (fun r => key r = keyB i) with
    | none => st
    | some r =>
        { used_b := st.used_b.set i true
          avail := st.avail.erase r
          matchesR := st.matchesR ++ [(i, r)] }

/-- With pairwise distinct keys, `find?` by key returns the unique record
with that key, wherever it sits. -/
theorem find?_of_nodup_keys (key : Rec → String) :
    ∀ (avail : List Rec) (r : Rec) (k : String),
      (avail.map key).Nodup → r ∈ avail → key r = k →
      avail.find? (fun x => key x = k) = some r := by
  intro avail
  induction avail with
  | nil => intro r k _ hr _; exact absurd hr (by simp)
  | cons a rest ih =>
    intro r k hnd hr hrk
    have hnd2 : (key a :: rest.map key).Nodup := by simpa using hnd
    rcases List.nodup_cons.mp hnd2 with ⟨hka, hndrest⟩
    by_cases hak : key a = k
    · have hra : r = a := by
        rcases List.mem_cons.mp hr with h | h
        · exact h
        · exfalso
          apply hka
          rw [hak, ← hrk]
          exact List.mem_map_of_mem key h
      rw [List.find?_cons_of_pos _ (by simpa using hak), hra]
    · have hra : ¬ (r = a) := by
        intro hEq
        exact hak (hEq ▸ hrk)
      rw [List.find?_cons_of_neg _ (by simpa using hak)]
      exact ih r k hndrest (by
        rcases List.mem_cons.mp hr with h | h
        · exact absurd h hra
        · exact h) hrk

/-- Marking a used candidate removes exactly its record from the unmatched
multiset. -/
theorem unusedRecs_set (cand : List Rec) (used_c : List Bool) (j : Nat)
    (hj : j < used_c.length) (hun : used_c.getD j false = false) :
    unusedRecs cand used_c ~ recOf cand j :: unusedRecs cand (used_c.set j true) := by
  have hjmem : j ∈ candIdxU used_c := by
    rw [candIdxU, List.mem_filter, List.mem_range]
    refine ⟨hj, ?_⟩
    rw [hun]
    rfl
  have hnodup : (candIdxU used_c).Nodup := (List.nodup_range _).filter _
  have hset : candIdxU (used_c.set j true) = (candIdxU used_c).filter (fun i => i != j) := by
    rw [candIdxU, candIdxU, List.length_set, List.filter_filter]
    apply List.filter_congr
    intro x _
    by_cases hx : j = x
    · rw [← hx, getD_set_self used_c j hj]
      simp
    · rw [getD_set_ne used_c j x hx]
      have hxj : (x != j) = true := by
        simp only [bne_iff_ne, ne_eq]
        intro hEq
        exact hx hEq.symm
      rw [hxj, Bool.true_and]
  have herase : (candIdxU used_c).erase j = (candIdxU used_c).filter (fun i => i != j) :=
    hnodup.erase_eq_filter j
  have hperm : candIdxU used_c ~ j :: candIdxU (used_c.set j true) := by
    rw [hset, ← herase]
    exact List.perm_cons_erase hjmem
  have := hperm.map (recOf cand)
  simpa [unusedRecs] using this

/-- A successful pop comes from a bucket carrying the requested key. -/
theorem popBucket_some_key (b : Buckets) (k : String) (j : Nat) (b2 : Buckets)
    (h : popBucket b k = (some j, b2)) :
    ∃ kv ∈ b, kv.1 = k ∧ j ∈ kv.2 := by
  unfold popBucket at h
  rcases hf : List.find? (fun kv => kv.1 = k) b with _ | kv0
  · rw [hf] at h
    simp at h
  · rw [hf] at h
    have h2 : (match kv0.2.getLast? with
      | none => ((none : Option Nat), b)
      | some j => (some j,
          List.map (fun kv2 => if kv2.1 = k then (kv2.1, kv2.2.dropLast) else kv2) b))
        = (some j, b2) := h
    rcases hl : kv0.2.getLast? with _ | j'
    · rw [hl] at h2
      simp at h2
    · rw [hl] at h2
      simp only [Prod.mk.injEq, Option.some.injEq] at h2
      have hne0 : kv0.2 ≠ [] := by
        intro hE
        rw [hE] at hl
        simp at hl
      have hjl : kv0.2.getLast hne0 = j := by
        rw [List.getLast?_eq_getLast kv0.2 hne0] at hl
        have := h2.1
        injection hl with hl2
        rw [hl2, this]
      refine ⟨kv0, List.mem_of_find?_eq_some hf, by simpa using List.find?_some hf, ?_⟩
      rw [← hjl]
      exact List.getLast_mem hne0

/-- A failed pop means every bucket with the requested key is empty. -/
theorem popBucket_none_nokey (b : Buckets) (k : String) (b2 : Buckets)
    (hknd : keysNodup b) (h : popBucket b k = (none, b2)) :
    ∀ kv ∈ b, kv.1 = k → kv.2 = [] := by
  unfold popBucket at h
  rcases hf : List.find? (fun kv => kv.1 = k) b with _ | kv0
  · intro kv hkv hk
    exfalso
    have := List.find?_eq_none.mp hf kv hkv
    simp [hk] at this
  · rw [hf] at h
    have h2 : (match kv0.2.getLast? with
      | none => ((none : Option Nat), b)
      | some j => (some j,
          List.map (fun kv2 => if kv2.1 = k then (kv2.1, kv2.2.dropLast) else kv2) b))
        = (none, b2) := h
    rcases hl : kv0.2.getLast? with _ | j'
    · have hkv02 : kv0.2 = [] := by
        cases hv : kv0.2 with
        | nil => rfl
        | cons x xs =>
          rw [hv] at hl
          exfalso
          have hx : (x :: xs).getLast? = some ((x :: xs).getLast (by simp)) :=
            List.getLast?_eq_getLast _ _
          rw [hx] at hl
          cases hl
      -- any bucket with key k coincides with the found one
      rcases List.find?_eq_some.mp hf with ⟨hpk, b1, b2', hsplit, hb1⟩
      have hk0 : kv0.1 = k := by simpa using hpk
      intro kv hkv hk
      have hkeys := hknd
      unfold keysNodup at hkeys
      rw [hsplit] at hkeys
      rw [hsplit] at hkv
      rcases List.mem_append.mp hkv with hmem | hmem
      · exfalso
        have := hb1 kv hmem
        simp [hk] at this
      · rcases List.mem_cons.mp hmem with hEq | hmem2
        · rw [hEq]
          exact hkv02
        · exfalso
          rw [List.map_append, List.map_cons] at hkeys
          rcases List.nodup_append.mp hkeys with ⟨_, hnd3, _⟩
          exact (List.nodup_cons.mp hnd3).1 (by
            rw [hk0, ← hk]
            exact List.mem_map_of_mem Prod.fst hmem2)
    · rw [hl] at h2
      simp at h2

/-- The shape of the buckets after a successful pop. -/
theorem popBucket_some_shape (b : Buckets) (k : String) (j : Nat) (b2 : Buckets)
    (h : popBucket b k = (some j, b2)) :
    b2 = List.map (fun kv2 => if kv2.1 = k then (kv2.1, kv2.2.dropLast) else kv2) b := by
  unfold popBucket at h
  rcases hf : List.find? (fun kv => kv.1 = k) b with _ | kv0
  · rw [hf] at h
    simp at h
  · rw [hf] at h
    have h2 : (match kv0.2.getLast? with
      | none => ((none : Option Nat), b)
      | some j => (some j,
          List.map (fun kv2 => if kv2.1 = k then (kv2.1, kv2.2.dropLast) else kv2) b))
        = (some j, b2) := h
    rcases hl : kv0.2.getLast? with _ | j'
    · rw [hl] at h2
      simp at h2
    · rw [hl] at h2
      exact (Prod.mk.injEq _ _ _ _ ▸ h2).2.symm

/-- Membership of an index in the buckets through a specific bucket. -/
theorem mem_bucketIdx (b : Buckets) (j : Nat) :
    j ∈ bucketIdx b ↔ ∃ kv ∈ b, j ∈ kv.2 := by
  rw [bucketIdx, List.mem_flatten]
  constructor
  · rintro ⟨l, hl, hj⟩
    rcases List.mem_map.mp hl with ⟨kv, hkv, hEq⟩
    exact ⟨kv, hkv, hEq ▸ hj⟩
  · rintro ⟨kv, hkv, hj⟩
    exact ⟨kv.2, List.mem_map_of_mem _ hkv, hj⟩

/-- Coupled pop: under the bucket-record correspondence with pairwise
distinct keys, popping a key from the buckets behaves exactly like looking
the key up among the available records. -/
theorem pop_couples (cand : List Rec) (key : Rec → String) (b : Buckets)
    (avail : List Rec) (hknd : keysNodup b) (hbnd : (bucketIdx b).Nodup)
    (hkey : ∀ kv ∈ b, ∀ j ∈ kv.2, key (recOf cand j) = kv.1)
    (hperm : (bucketIdx b).map (recOf cand) ~ avail)
    (hdk : (avail.map key).Nodup) (k : String) :
    ((popBucket b k).1 = none ∧ (popBucket b k).2 = b ∧
      avail.find? (fun r => key r = k) = none) ∨
    (∃ j, (popBucket b k).1 = some j ∧
      avail.find? (fun r => key r = k) = some (recOf cand j) ∧
      j ∈ bucketIdx b ∧
      keysNodup (popBucket b k).2 ∧
      (bucketIdx (popBucket b k).2).Nodup ∧
      (∀ kv ∈ (popBucket b k).2, ∀ x ∈ kv.2, key (recOf cand x) = kv.1) ∧
      ((bucketIdx (popBucket b k).2).map (recOf cand)) ~ avail.erase (recOf cand j) ∧
      avail ~ recOf cand j :: avail.erase (recOf cand j)) := by
  rcases hpop : popBucket b k with ⟨ro, b2⟩
  rcases ro with _ | j
  · left
    have hb2 : b2 = b := popBucket_none b k b2 hpop
    refine ⟨rfl, hb2, ?_⟩
    apply List.find?_eq_none.mpr
    intro r hr
    simp only [decide_eq_true_eq]
    intro hrk
    have hrB : r ∈ (bucketIdx b).map (recOf cand) := hperm.symm.mem_iff.mp hr
    rcases List.mem_map.mp hrB with ⟨x, hx, hxr⟩
    rcases (mem_bucketIdx b x).mp hx with ⟨kv, hkv, hxkv⟩
    have hkx : key (recOf cand x) = kv.1 := hkey kv hkv x hxkv
    have hkvk : kv.1 = k := by
      rw [← hkx, hxr, hrk]
    have := popBucket_none_nokey b k b2 hknd hpop kv hkv hkvk
    rw [this] at hxkv
    exact absurd hxkv (by simp)
  · right
    rcases popBucket_some b k j b2 hknd hpop with ⟨hpermIdx, hknd2⟩
    rcases popBucket_some_key b k j b2 hpop with ⟨kv, hkv, hkvk, hjkv⟩
    have hjb : j ∈ bucketIdx b := (mem_bucketIdx b j).mpr ⟨kv, hkv, hjkv⟩
    have hkj : key (recOf cand j) = k := by
      rw [hkey kv hkv j hjkv, hkvk]
    have hjav : recOf cand j ∈ avail :=
      hperm.mem_iff.mp (List.mem_map_of_mem _ hjb)
    have hfind : avail.find? (fun r => key r = k) = some (recOf cand j) := by
      have := find?_of_nodup_keys key avail (recOf cand j) k hdk hjav hkj
      simpa using this
    have hbnd2 : (bucketIdx b2).Nodup :=
      (List.nodup_cons.mp (hpermIdx.nodup_iff.mp hbnd)).2
    have hkey2 : ∀ kv2 ∈ b2, ∀ x ∈ kv2.2, key (recOf cand x) = kv2.1 := by
      have hshape := popBucket_some_shape b k j b2 hpop
      intro kv2 hkv2 x hx
      rw [hshape] at hkv2
      rcases List.mem_map.mp hkv2 with ⟨kv0, hkv0, hEq⟩
      by_cases hk0 : kv0.1 = k
      · have hEq2 : kv2 = (kv0.1, kv0.2.dropLast) := by
          rw [← hEq, if_pos hk0]
        rw [hEq2] at hx
        have hx2 : x ∈ kv0.2 := (List.dropLast_sublist kv0.2).mem hx
        rw [hEq2]
        exact hkey kv0 hkv0 x hx2
      · have hEq2 : kv2 = kv0 := by
          rw [← hEq, if_neg hk0]
        rw [hEq2] at hx ⊢
        exact hkey kv0 hkv0 x hx
    have hchain : avail ~ recOf cand j :: (bucketIdx b2).map (recOf cand) := by
      calc avail ~ (bucketIdx b).map (recOf cand) := hperm.symm
        _ ~ (j :: bucketIdx b2).map (recOf cand) := hpermIdx.map _
        _ = recOf cand j :: (bucketIdx b2).map (recOf cand) := by rw [List.map_cons]
    have hpermE : (bucketIdx b2).map (recOf cand) ~ avail.erase (recOf cand j) := by
      have h1 : avail.erase (recOf cand j)
          ~ (recOf cand j :: (bucketIdx b2).map (recOf cand)).erase (recOf cand j) :=
        hchain.erase _
      rw [List.erase_cons_head] at h1
      exact h1.symm
    exact ⟨j, rfl, hfind, hjb, hknd2, hbnd2, hkey2, hpermE, List.perm_cons_erase hjav⟩

/-- `bucketsAdd` preserves the "every stored index has the bucket's key"
property. -/
theorem bucketsAdd_keyprop (keyN : Nat → String) (b : Buckets) (i : Nat)
    (hb : ∀ kv ∈ b, ∀ j ∈ kv.2, keyN j = kv.1) :
    ∀ kv ∈ bucketsAdd b (keyN i) i, ∀ j ∈ kv.2, keyN j = kv.1 := by
  intro kv hkv j hj
  rw [bucketsAdd] at hkv
  by_cases hfind : ((List.find? (fun kv => kv.1 = keyN i) b).isSome : Bool)
  · rw [if_pos hfind] at hkv
    rcases List.mem_map.mp hkv with ⟨kv0, hkv0, hEq⟩
    by_cases hk0 : kv0.1 = keyN i
    · have hEq2 : kv = (kv0.1, kv0.2 ++ [i]) := by
        rw [← hEq, if_pos hk0]
      rw [hEq2] at hj
      rw [hEq2]
      show keyN j = kv0.1
      rcases List.mem_append.mp hj with h | h
      · exact hb kv0 hkv0 j h
      · have hji : j = i := by simpa using h
        rw [hji, hk0]
    · have hEq2 : kv = kv0 := by
        rw [← hEq, if_neg hk0]
      rw [hEq2] at hj
      rw [hEq2]
      exact hb kv0 hkv0 j hj
  · rw [if_neg hfind] at hkv
    rcases List.mem_append.mp hkv with h | h
    · exact hb kv h j hj
    · have hkv2 : kv = (keyN i, [i]) := by simpa using h
      rw [hkv2] at hj
      rw [hkv2]
      show keyN j = keyN i
      have hji : j = i := by simpa using hj
      rw [hji]

/-- Every index stored by `indexMany` carries its bucket's key. -/
theorem indexMany_keyprop (keyN : Nat → String) :
    ∀ (values : List Nat) (b0 : Buckets),
      (∀ kv ∈ b0, ∀ j ∈ kv.2, keyN j = kv.1) →
      ∀ kv ∈ values.foldl
          (fun b i => if keyN i = "" then b else bucketsAdd b (keyN i) i) b0,
        ∀ j ∈ kv.2, keyN j = kv.1 := by
  intro values
  induction values with
  | nil => intro b0 h; exact h
  | cons v vs ih =>
    intro b0 h
    rw [List.foldl_cons]
    by_cases hv : keyN v = ""
    · rw [if_pos hv]
      exact ih b0 h
    · rw [if_neg hv]
      exact ih _ (bucketsAdd_keyprop keyN b0 v h)

theorem refStep_eq (key : Rec → String) (keyB : Nat → String) (skipB : Nat → Bool)
    (st : RState) (i : Nat) :
    refStep key keyB skipB st i =
      if st.used_b.getD i false || skipB i then st
      else match st.avail.find? (fun r => key r = keyB i) with
        | none => st
        | some r =>
            { used_b := st.used_b.set i true
              avail := st.avail.erase r
              matchesR := st.matchesR ++ [(i, r)] } := rfl

/-- Coupling between the bucket-based pass state and the reference state:
equal base flags, well-formed buckets whose stored candidate records are a
permutation of the reference's available records with pairwise-distinct
keys, all of them unused. -/
def Couples (cand : List Rec) (key : Rec → String)
    (b : Buckets) (st : MState) (rst : RState) : Prop :=
  rst.used_b = st.used_b ∧
  keysNodup b ∧ (bucketIdx b).Nodup ∧
  (∀ kv ∈ b, ∀ j ∈ kv.2, key (recOf cand j) = kv.1) ∧
  ((bucketIdx b).map (recOf cand) ~ rst.avail) ∧
  (rst.avail.map key).Nodup ∧
  (∀ j ∈ bucketIdx b, j < st.used_c.length ∧ st.used_c.getD j false = false)

/-- One coupled step: the bucket-based pass step and the reference step stay
in lockstep, and the step's new matches account exactly for the candidate
records leaving the unmatched pool. -/
theorem step_sim (cand : List Rec) (key : Rec → String)
    (keyB : Nat → String) (skipB : Nat → Bool)
    (b : Buckets) (st : MState) (rst : RState) (i : Nat)
    (hC : Couples cand key b st rst) :
    Couples cand key (passStep keyB skipB (b, st) i).1 (passStep keyB skipB (b, st) i).2
      (refStep key keyB skipB rst i) ∧
    ∃ δ : List (Nat × Nat),
      (passStep keyB skipB (b, st) i).2.matches_idx = st.matches_idx ++ δ ∧
      (refStep key keyB skipB rst i).matchesR
        = rst.matchesR ++ δ.map (fun ij => (ij.1, recOf cand ij.2)) ∧
      unusedRecs cand st.used_c
        ~ δ.map (fun ij => recOf cand ij.2)
            ++ unusedRecs cand (passStep keyB skipB (b, st) i).2.used_c := by
  rcases hC with ⟨hub, hknd, hbnd, hkey, hperm, hdk, hcu⟩
  by_cases hskip : st.used_b.getD i false || skipB i
  · have hstep : passStep keyB skipB (b, st) i = (b, st) := by
      rw [passStep_eq, if_pos hskip]
    have hrstep : refStep key keyB skipB rst i = rst := by
      rw [refStep_eq, hub, if_pos hskip]
    rw [hstep, hrstep]
    exact ⟨⟨hub, hknd, hbnd, hkey, hperm, hdk, hcu⟩, [], by simp, by simp, by simp⟩
  · rcases pop_couples cand key b rst.avail hknd hbnd hkey hperm hdk (keyB i) with
      ⟨hp1, hp2, hfindN⟩ | ⟨j, hpop1, hfind, hjb, hknd2, hbnd2, hkey2, hpermE, havail⟩
    · have hpopE : popBucket b (keyB i) = (none, b) := Prod.ext hp1 hp2
      have hstep : passStep keyB skipB (b, st) i = (b, st) := by
        rw [passStep_eq, if_neg hskip, hpopE]
      have hrstep : refStep key keyB skipB rst i = rst := by
        rw [refStep_eq, hub, if_neg hskip, hfindN]
      rw [hstep, hrstep]
      exact ⟨⟨hub, hknd, hbnd, hkey, hperm, hdk, hcu⟩, [], by simp, by simp, by simp⟩
    · have hpopE : popBucket b (keyB i) = (some j, (popBucket b (keyB i)).2) :=
        Prod.ext hpop1 rfl
      have hstep : passStep keyB skipB (b, st) i
          = ((popBucket b (keyB i)).2,
             { used_b := st.used_b.set i true
               used_c := st.used_c.set j true
               matches_idx := st.matches_idx ++ [(i, j)] }) := by
        rw [passStep_eq, if_neg hskip]
        rw [hpopE]
      have hrstep : refStep key keyB skipB rst i
          = { used_b := rst.used_b.set i true
              avail := rst.avail.erase (recOf cand j)
              matchesR := rst.matchesR ++ [(i, recOf cand j)] } := by
        rw [refStep_eq, hub, if_neg hskip, hfind]
      rcases hcu j hjb with ⟨hjlen, hjun⟩
      rcases popBucket_some b (keyB i) j (popBucket b (keyB i)).2 hknd hpopE with
        ⟨hpermIdx, _⟩
      have hnodc : (j :: bucketIdx (popBucket b (keyB i)).2).Nodup :=
        hpermIdx.nodup_iff.mp hbnd
      have hjnot : j ∉ bucketIdx (popBucket b (keyB i)).2 := (List.nodup_cons.mp hnodc).1
      rw [hstep, hrstep]
      refine ⟨⟨?_, hknd2, hbnd2, hkey2, hpermE, ?_, ?_⟩, [(i, j)], by simp, ?_, ?_⟩
      · show rst.used_b.set i true = st.used_b.set i true
        rw [hub]
      · show ((rst.avail.erase (recOf cand j)).map key).Nodup
        exact hdk.sublist ((List.erase_sublist (recOf cand j) rst.avail).map key)
      · intro x hx
        have hxb : x ∈ bucketIdx b :=
          hpermIdx.mem_iff.mpr (List.mem_cons_of_mem _ hx)
        rcases hcu x hxb with ⟨hxlen, hxun⟩
        have hxj : ¬ (j = x) := by
          intro hEq
          exact hjnot (hEq ▸ hx)
        show x < (st.used_c.set j true).length ∧ (st.used_c.set j true).getD x false = false
        rw [List.length_set, getD_set_ne st.used_c j x hxj]
        exact ⟨hxlen, hxun⟩
      · show rst.matchesR ++ [(i, recOf cand j)]
          = rst.matchesR ++ [(i, j)].map (fun ij => (ij.1, recOf cand ij.2))
        simp
      · show unusedRecs cand st.used_c
          ~ [(i, j)].map (fun ij => recOf cand ij.2)
              ++ unusedRecs cand (st.used_c.set j true)
        have := unusedRecs_set cand st.used_c j hjlen hjun
        simpa using this

/-- The coupled simulation of a whole pass sweep. -/
theorem fold_sim (cand : List Rec) (key : Rec → String)
    (keyB : Nat → String) (skipB : Nat → Bool) :
    ∀ (is_ : List Nat) (b : Buckets) (st : MState) (rst : RState),
      Couples cand key b st rst →
      Couples cand key ((is_.foldl (passStep keyB skipB) (b, st)).1)
        ((is_.foldl (passStep keyB skipB) (b, st)).2)
        (is_.foldl (refStep key keyB skipB) rst) ∧
      ∃ δ : List (Nat × Nat),
        ((is_.foldl (passStep keyB skipB) (b, st)).2).matches_idx
          = st.matches_idx ++ δ ∧
        (is_.foldl (refStep key keyB skipB) rst).matchesR
          = rst.matchesR ++ δ.map (fun ij => (ij.1, recOf cand ij.2)) ∧
        unusedRecs cand st.used_c
          ~ δ.map (fun ij => recOf cand ij.2)
              ++ unusedRecs cand ((is_.foldl (passStep keyB skipB) (b, st)).2).used_c := by
  intro is_
  induction is_ with
  | nil =>
    intro b st rst hC
    exact ⟨hC, [], by simp, by simp, by simp⟩
  | cons i is_ ih =>
    intro b st rst hC
    rw [List.foldl_cons, List.foldl_cons]
    rcases step_sim cand key keyB skipB b st rst i hC with ⟨hC1, δ1, hm1, hr1, hu1⟩
    rcases ih (passStep keyB skipB (b, st) i).1 (passStep keyB skipB (b, st) i).2
        (refStep key keyB skipB rst i) hC1 with ⟨hC2, δ2, hm2, hr2, hu2⟩
    refine ⟨hC2, δ1 ++ δ2, ?_, ?_, ?_⟩
    · rw [hm2, hm1, List.append_assoc]
    · rw [hr2, hr1, List.map_append, List.append_assoc]
    · calc unusedRecs cand st.used_c
          ~ δ1.map (fun ij => recOf cand ij.2)
              ++ unusedRecs cand (passStep keyB skipB (b, st) i).2.used_c := hu1
        _ ~ δ1.map (fun ij => recOf cand ij.2)
              ++ (δ2.map (fun ij => recOf cand ij.2)
                  ++ unusedRecs cand
                    ((is_.foldl (passStep keyB skipB)
                      ((passStep keyB skipB (b, st) i).1,
                       (passStep keyB skipB (b, st) i).2)).2).used_c) :=
            List.Perm.append_left _ hu2
        _ = (δ1 ++ δ2).map (fun ij => recOf cand ij.2)
              ++ unusedRecs cand
                ((is_.foldl (passStep keyB skipB)
                  ((passStep keyB skipB (b, st) i).1,
                   (passStep keyB skipB (b, st) i).2)).2).used_c := by
            rw [List.map_append, List.append_assoc]

theorem map_recOf_range (cand : List Rec) :
    (List.range cand.length).map (recOf cand) = cand :=
  map_getD_range_rec cand

/-- With all-false used flags, every candidate record is unmatched. -/
theorem unusedRecs_replicate (cand : List Rec) :
    unusedRecs cand (List.replicate cand.length false) = cand := by
  rw [unusedRecs, candIdxU, List.length_replicate]
  have hfil : (List.range cand.length).filter
      (fun i => !((List.replicate cand.length false).getD i false))
      = List.range cand.length := by
    apply List.filter_eq_self.mpr
    intro a _
    rw [getD_replicate_false]
    rfl
  rw [hfil, map_recOf_range]

/-- The unmatched candidate records form a sublist of the candidates. -/
theorem unusedRecs_sublist (cand : List Rec) (u : List Bool)
    (hlen : u.length = cand.length) : unusedRecs cand u <+ cand := by
  rw [unusedRecs, candIdxU, hlen]
  have h1 : (List.range cand.length).filter (fun i => !(u.getD i false))
      <+ List.range cand.length := List.filter_sublist _
  have h2 := h1.map (recOf cand)
  rw [map_recOf_range] at h2
  exact h2

/-- Keys of the filtered unmatched pool are pairwise distinct whenever the
candidates' nonempty keys are. -/
theorem avail_keys_nodup (key : Rec → String) (cand : List Rec) (u : List Bool)
    (hlen : u.length = cand.length)
    (hnd : ((cand.map key).filter (fun s => !decide (s = ""))).Nodup) :
    (((unusedRecs cand u).filter (fun r => !decide (key r = ""))).map key).Nodup := by
  have hfm : ((unusedRecs cand u).filter (fun r => !decide (key r = ""))).map key
      = ((unusedRecs cand u).map key).filter (fun s => !decide (s = "")) := by
    rw [List.filter_map]
    rfl
  rw [hfm]
  exact hnd.sublist (((unusedRecs_sublist cand u hlen).map key).filter _)

/-- The initial coupling of a pass: buckets freshly built from the unmatched
candidate indices against the keyed unmatched records. -/
theorem initCouples (cand : List Rec) (key : Rec → String) (st : MState)
    (ms : List (Nat × Rec)) (hlen : st.used_c.length = cand.length)
    (hdkc : ((cand.map key).filter (fun s => !decide (s = ""))).Nodup) :
    Couples cand key
      (indexMany (candIdxU st.used_c) (fun j => key (recOf cand j))) st
      { used_b := st.used_b
        avail := (unusedRecs cand st.used_c).filter (fun r => !decide (key r = ""))
        matchesR := ms } := by
  have hidx := indexMany_spec (fun j => key (recOf cand j)) (candIdxU st.used_c) []
    (by simp [keysNodup])
  have hpermB : bucketIdx (indexMany (candIdxU st.used_c) (fun j => key (recOf cand j)))
      ~ (candIdxU st.used_c).filter (fun j => !decide (key (recOf cand j) = "")) := by
    have h := hidx.1
    simpa [indexMany, bucketIdx] using h
  have hcnd : (candIdxU st.used_c).Nodup := (List.nodup_range _).filter _
  have hcmem : ∀ j ∈ candIdxU st.used_c,
      j < st.used_c.length ∧ st.used_c.getD j false = false := by
    intro j hj
    rcases List.mem_filter.mp hj with ⟨hjr, hju⟩
    exact ⟨List.mem_range.mp hjr, by simpa using hju⟩
  refine ⟨rfl, hidx.2, ?_, ?_, ?_, ?_, ?_⟩
  · exact hpermB.nodup_iff.mpr (hcnd.filter _)
  · exact indexMany_keyprop (fun j => key (recOf cand j)) (candIdxU st.used_c) []
      (by simp)
  · show (bucketIdx (indexMany (candIdxU st.used_c)
        (fun j => key (recOf cand j)))).map (recOf cand)
      ~ (unusedRecs cand st.used_c).filter (fun r => !decide (key r = ""))
    have h1 := hpermB.map (recOf cand)
    have h2 : (unusedRecs cand st.used_c).filter (fun r => !decide (key r = ""))
        = ((candIdxU st.used_c).filter
            (fun j => !decide (key (recOf cand j) = ""))).map (recOf cand) := by
      rw [unusedRecs, List.filter_map]
      rfl
    rw [h2]
    exact h1
  · show ((((unusedRecs cand st.used_c).filter
        (fun r => !decide (key r = "")))).map key).Nodup
    exact avail_keys_nodup key cand st.used_c hlen hdkc
  · intro j hj
    exact hcmem j (hpermB.mem_iff.mp hj |> List.mem_filter.mp |>.1)

/-- One reference step applied to two equivalent states (equal flags and
matches, available pools a permutation with distinct keys) stays in sync. -/
theorem refStep_congr (key : Rec → String) (keyB : Nat → String) (skipB : Nat → Bool)
    (r1 r2 : RState) (i : Nat)
    (hub : r1.used_b = r2.used_b) (hm : r1.matchesR = r2.matchesR)
    (hav : r1.avail ~ r2.avail) (hnd : (r1.avail.map key).Nodup) :
    (refStep key keyB skipB r1 i).used_b = (refStep key keyB skipB r2 i).used_b ∧
    (refStep key keyB skipB r1 i).matchesR = (refStep key keyB skipB r2 i).matchesR ∧
    (refStep key keyB skipB r1 i).avail ~ (refStep key keyB skipB r2 i).avail ∧
    ((refStep key keyB skipB r1 i).avail.map key).Nodup := by
  have hnd2 : (r2.avail.map key).Nodup := (hav.map key).nodup_iff.mp hnd
  by_cases hskip : r1.used_b.getD i false || skipB i
  · have hs1 : refStep key keyB skipB r1 i = r1 := by
      rw [refStep_eq, if_pos hskip]
    have hs2 : refStep key keyB skipB r2 i = r2 := by
      rw [refStep_eq, ← hub, if_pos hskip]
    rw [hs1, hs2]
    exact ⟨hub, hm, hav, hnd⟩
  · rcases hf1 : r1.avail.find? (fun r => key r = keyB i) with _ | r
    · have hf2 : r2.avail.find? (fun r => key r = keyB i) = none := by
        apply List.find?_eq_none.mpr
        intro x hx
        exact List.find?_eq_none.mp hf1 x (hav.symm.mem_iff.mp hx)
      have hs1 : refStep key keyB skipB r1 i = r1 := by
        rw [refStep_eq, if_neg hskip, hf1]
      have hs2 : refStep key keyB skipB r2 i = r2 := by
        rw [refStep_eq, ← hub, if_neg hskip, hf2]
      rw [hs1, hs2]
      exact ⟨hub, hm, hav, hnd⟩
    · have hrmem : r ∈ r1.avail := List.mem_of_find?_eq_some hf1
      have hrk : key r = keyB i := by
        have := List.find?_some hf1
        simpa using this
      have hf2 : r2.avail.find? (fun r => key r = keyB i) = some r := by
        have := find?_of_nodup_keys key r2.avail r (keyB i) hnd2
          (hav.mem_iff.mp hrmem) hrk
        simpa using this
      have hs1 : refStep key keyB skipB r1 i
          = { used_b := r1.used_b.set i true
              avail := r1.avail.erase r
              matchesR := r1.matchesR ++ [(i, r)] } := by
        rw [refStep_eq, if_neg hskip, hf1]
      have hs2 : refStep key keyB skipB r2 i
          = { used_b := r2.used_b.set i true
              avail := r2.avail.erase r
              matchesR := r2.matchesR ++ [(i, r)] } := by
        rw [refStep_eq, ← hub, if_neg hskip, hf2]
      rw [hs1, hs2]
      refine ⟨by rw [hub], by rw [hm], hav.erase r, ?_⟩
      exact hnd.sublist ((List.erase_sublist r r1.avail).map key)

/-- A whole reference sweep applied to two equivalent states stays in sync. -/
theorem refFold_perm (key : Rec → String) (keyB : Nat → String) (skipB : Nat → Bool) :
    ∀ (is_ : List Nat) (r1 r2 : RState),
      r1.used_b = r2.used_b → r1.matchesR = r2.matchesR → r1.avail ~ r2.avail →
      (r1.avail.map key).Nodup →
      (is_.foldl (refStep key keyB skipB) r1).used_b
        = (is_.foldl (refStep key keyB skipB) r2).used_b ∧
      (is_.foldl (refStep key keyB skipB) r1).matchesR
        = (is_.foldl (refStep key keyB skipB) r2).matchesR ∧
      (is_.foldl (refStep key keyB skipB) r1).avail
        ~ (is_.foldl (refStep key keyB skipB) r2).avail := by
  intro is_
  induction is_ with
  | nil =>
    intro r1 r2 hub hm hav _
    exact ⟨hub, hm, hav⟩
  | cons i is_ ih =>
    intro r1 r2 hub hm hav hnd
    rw [List.foldl_cons, List.foldl_cons]
    rcases refStep_congr key keyB skipB r1 r2 i hub hm hav hnd with ⟨h1, h2, h3, h4⟩
    exact ih _ _ h1 h2 h3 h4

/-- `extra` is exactly the unmatched candidate pool of the final state. -/
theorem extra_eq_unusedRecs (base cand : List Rec) (tf : Bool) :
    (matchRecs base cand tf).2.2 = unusedRecs cand (matchIdx base cand tf).used_c := by
  have hlen : (matchIdx base cand tf).used_c.length = cand.length :=
    (matchIdx_WF base cand tf).2.1
  show (List.range cand.length).filterMap
      (fun j => if (matchIdx base cand tf).used_c.getD j false then none
                else some (cand.getD j default))
    = unusedRecs cand (matchIdx base cand tf).used_c
  rw [filterMap_if_eq_filter_map, unusedRecs, candIdxU, hlen]
  rfl

/-- Running one pass on two permuted candidate pools with pairwise-distinct
nonempty keys yields the same base flags, the same record-resolved matches,
and permuted unmatched pools. -/
theorem pass_compare (base cand cand' : List Rec) (key : Rec → String)
    (keyB : Nat → String) (skipB : Nat → Bool) (st1 st2 : MState)
    (hlen1 : st1.used_c.length = cand.length)
    (hlen2 : st2.used_c.length = cand'.length)
    (hub : st1.used_b = st2.used_b)
    (hm : st1.matches_idx.map (fun ij => (ij.1, recOf cand ij.2))
        = st2.matches_idx.map (fun ij => (ij.1, recOf cand' ij.2)))
    (hu : unusedRecs cand st1.used_c ~ unusedRecs cand' st2.used_c)
    (hk1 : ((cand.map key).filter (fun s => !decide (s = ""))).Nodup)
    (hk2 : ((cand'.map key).filter (fun s => !decide (s = ""))).Nodup) :
    (runPass (fun i => key (cand.getD i default)) keyB skipB base.length st1).used_b
      = (runPass (fun i => key (cand'.getD i default)) keyB skipB base.length st2).used_b ∧
    (runPass (fun i => key (cand.getD i default)) keyB skipB base.length st1).matches_idx.map
        (fun ij => (ij.1, recOf cand ij.2))
      = (runPass (fun i => key (cand'.getD i default)) keyB skipB base.length st2).matches_idx.map
        (fun ij => (ij.1, recOf cand' ij.2)) ∧
    unusedRecs cand
        (runPass (fun i => key (cand.getD i default)) keyB skipB base.length st1).used_c
      ~ unusedRecs cand'
        (runPass (fun i => key (cand'.getD i default)) keyB skipB base.length st2).used_c := by
  have hC1 := initCouples cand key st1
    (st1.matches_idx.map (fun ij => (ij.1, recOf cand ij.2))) hlen1 hk1
  have hC2 := initCouples cand' key st2
    (st2.matches_idx.map (fun ij => (ij.1, recOf cand' ij.2))) hlen2 hk2
  rcases fold_sim cand key keyB skipB (List.range base.length) _ st1 _ hC1 with
    ⟨hCf1, δ1, hm1, hr1, hu1⟩
  rcases fold_sim cand' key keyB skipB (List.range base.length) _ st2 _ hC2 with
    ⟨hCf2, δ2, hm2, hr2, hu2⟩
  rcases refFold_perm key keyB skipB (List.range base.length)
      { used_b := st1.used_b
        avail := (unusedRecs cand st1.used_c).filter (fun r => !decide (key r = ""))
        matchesR := st1.matches_idx.map (fun ij => (ij.1, recOf cand ij.2)) }
      { used_b := st2.used_b
        avail := (unusedRecs cand' st2.used_c).filter (fun r => !decide (key r = ""))
        matchesR := st2.matches_idx.map (fun ij => (ij.1, recOf cand' ij.2)) }
      hub hm (hu.filter _) (avail_keys_nodup key cand st1.used_c hlen1 hk1) with
    ⟨hfub, hfm, _⟩
  have hrun1 : runPass (fun i => key (cand.getD i default)) keyB skipB base.length st1
      = ((List.range base.length).foldl (passStep keyB skipB)
          (indexMany (candIdxU st1.used_c) (fun j => key (recOf cand j)), st1)).2 := rfl
  have hrun2 : runPass (fun i => key (cand'.getD i default)) keyB skipB base.length st2
      = ((List.range base.length).foldl (passStep keyB skipB)
          (indexMany (candIdxU st2.used_c) (fun j => key (recOf cand' j)), st2)).2 := rfl
  have hRm1 := hr1.symm.trans (hfm.trans hr2)
  rw [← hm] at hRm1
  have hδ : δ1.map (fun ij => (ij.1, recOf cand ij.2))
      = δ2.map (fun ij => (ij.1, recOf cand' ij.2)) :=
    List.append_cancel_left hRm1
  have hδ2 : δ1.map (fun ij => recOf cand ij.2)
      = δ2.map (fun ij => recOf cand' ij.2) := by
    have h1 : δ1.map (fun ij => recOf cand ij.2)
        = (δ1.map (fun ij => (ij.1, recOf cand ij.2))).map Prod.snd := by
      rw [List.map_map]
      exact List.map_congr_left (fun x _ => rfl)
    have h2 : δ2.map (fun ij => recOf cand' ij.2)
        = (δ2.map (fun ij => (ij.1, recOf cand' ij.2))).map Prod.snd := by
      rw [List.map_map]
      exact List.map_congr_left (fun x _ => rfl)
    rw [h1, h2, hδ]
  refine ⟨?_, ?_, ?_⟩
  · rw [hrun1, hrun2, ← hCf1.1, ← hCf2.1]
    exact hfub
  · rw [hrun1, hrun2, hm1, hm2, List.map_append, List.map_append, hm, hδ]
  · rw [hrun1, hrun2]
    apply (List.perm_append_left_iff (δ1.map (fun ij => recOf cand ij.2))).mp
    refine hu1.symm.trans (hu.trans (hu2.trans ?_))
    rw [hδ2]

/-- The whole three-pass matcher, compared across permuted candidate pools
with pairwise-distinct nonempty per-pass keys. -/
theorem matchIdx_compare (base cand cand' : List Rec) (tf : Bool)
    (hperm : cand' ~ cand)
    (hk1 : ((cand.map pass1Key).filter (fun s => !decide (s = ""))).Nodup)
    (hk2 : ((cand.map pass2Key).filter (fun s => !decide (s = ""))).Nodup)
    (hk3 : ((cand.map (fun r => r.title_norm)).filter (fun s => !decide (s = ""))).Nodup) :
    (matchIdx base cand tf).used_b = (matchIdx base cand' tf).used_b ∧
    (matchIdx base cand tf).matches_idx.map (fun ij => (ij.1, recOf cand ij.2))
      = (matchIdx base cand' tf).matches_idx.map (fun ij => (ij.1, recOf cand' ij.2)) ∧
    unusedRecs cand (matchIdx base cand tf).used_c
      ~ unusedRecs cand' (matchIdx base cand' tf).used_c := by
  have hk1' : ((cand'.map pass1Key).filter (fun s => !decide (s = ""))).Nodup :=
    ((hperm.map pass1Key).filter _).nodup_iff.mpr hk1
  have hk2' : ((cand'.map pass2Key).filter (fun s => !decide (s = ""))).Nodup :=
    ((hperm.map pass2Key).filter _).nodup_iff.mpr hk2
  have hk3' : ((cand'.map (fun r => r.title_norm)).filter
      (fun s => !decide (s = ""))).Nodup :=
    ((hperm.map (fun r => r.title_norm)).filter _).nodup_iff.mpr hk3
  have hW0a : WF base.length cand.length
      ⟨List.replicate base.length false, List.replicate cand.length false, []⟩ :=
    replicate_WF _ _
  have hW0b : WF base.length cand'.length
      ⟨List.replicate base.length false, List.replicate cand'.length false, []⟩ :=
    replicate_WF _ _
  rcases pass_compare base cand cand' pass1Key
      (fun i => pass1Key (base.getD i default)) (fun _ => false)
      ⟨List.replicate base.length false, List.replicate cand.length false, []⟩
      ⟨List.replicate base.length false, List.replicate cand'.length false, []⟩
      (by simp) (by simp) rfl rfl
      (by
        show unusedRecs cand (List.replicate cand.length false)
          ~ unusedRecs cand' (List.replicate cand'.length false)
        rw [unusedRecs_replicate, unusedRecs_replicate]
        exact hperm.symm)
      hk1 hk1' with ⟨hub1, hm1, hu1⟩
  have hW1a : WF base.length cand.length
      (runPass (fun i => pass1Key (cand.getD i default))
        (fun i => pass1Key (base.getD i default)) (fun _ => false) base.length
        ⟨List.replicate base.length false, List.replicate cand.length false, []⟩) :=
    runPass_WF _ _ _ _ _ _ hW0a
  have hW1b : WF base.length cand'.length
      (runPass (fun i => pass1Key (cand'.getD i default))
        (fun i => pass1Key (base.getD i default)) (fun _ => false) base.length
        ⟨List.replicate base.length false, List.replicate cand'.length false, []⟩) :=
    runPass_WF _ _ _ _ _ _ hW0b
  rcases pass_compare base cand cand' pass2Key
      (fun i => pass2Key (base.getD i default))
      (fun i => decide (pass2Key (base.getD i default) = ""))
      (runPass (fun i => pass1Key (cand.getD i default))
        (fun i => pass1Key (base.getD i default)) (fun _ => false) base.length
        ⟨List.replicate base.length false, List.replicate cand.length false, []⟩)
      (runPass (fun i => pass1Key (cand'.getD i default))
        (fun i => pass1Key (base.getD i default)) (fun _ => false) base.length
        ⟨List.replicate base.length false, List.replicate cand'.length false, []⟩)
      hW1a.2.1 hW1b.2.1 hub1 hm1 hu1 hk2 hk2' with ⟨hub2, hm2, hu2⟩
  have hW2a : WF base.length cand.length
      (runPass (fun i => pass2Key (cand.getD i default))
        (fun i => pass2Key (base.getD i default))
        (fun i => decide (pass2Key (base.getD i default) = "")) base.length
        (runPass (fun i => pass1Key (cand.getD i default))
          (fun i => pass1Key (base.getD i default)) (fun _ => false) base.length
          ⟨List.replicate base.length false, List.replicate cand.length false, []⟩)) :=
    runPass_WF _ _ _ _ _ _ hW1a
  have hW2b : WF base.length cand'.length
      (runPass (fun i => pass2Key (cand'.getD i default))
        (fun i => pass2Key (base.getD i default))
        (fun i => decide (pass2Key (base.getD i default) = "")) base.length
        (runPass (fun i => pass1Key (cand'.getD i default))
          (fun i => pass1Key (base.getD i default)) (fun _ => false) base.length
          ⟨List.replicate base.length false, List.replicate cand'.length false, []⟩)) :=
    runPass_WF _ _ _ _ _ _ hW1b
  cases tf with
  | false => exact ⟨hub2, hm2, hu2⟩
  | true =>
    rcases pass_compare base cand cand' (fun r => r.title_norm)
        (fun i => (base.getD i default).title_norm) (fun _ => false)
        (runPass (fun i => pass2Key (cand.getD i default))
          (fun i => pass2Key (base.getD i default))
          (fun i => decide (pass2Key (base.getD i default) = "")) base.length
          (runPass (fun i => pass1Key (cand.getD i default))
            (fun i => pass1Key (base.getD i default)) (fun _ => false) base.length
            ⟨List.replicate base.length false, List.replicate cand.length false, []⟩))
        (runPass (fun i => pass2Key (cand'.getD i default))
          (fun i => pass2Key (base.getD i default))
          (fun i => decide (pass2Key (base.getD i default) = "")) base.length
          (runPass (fun i => pass1Key (cand'.getD i default))
            (fun i => pass1Key (base.getD i default)) (fun _ => false) base.length
            ⟨List.replicate base.length false, List.replicate cand'.length false, []⟩))
        hW2a.2.1 hW2b.2.1 hub2 hm2 hu2 hk3 hk3' with ⟨hub3, hm3, hu3⟩
    exact ⟨hub3, hm3, hu3⟩

/-- A record with the given content id, artist/title keys and filename key,
all other fields defaulted. -/
def mRec (cid : Nat) (a t : String) (fb : Option String) : Rec :=
  { content_id := cid, song_pl_id := "", artist_norm := a, title_norm := t,
    fb_norm := fb, label := "", track_no := 0, hot_cues := 0, hot_cue_ms := [] }

/-- C7: counterexample — the two candidate orderings are permutations of one
another, yet `_match` (with the title fallback) loses the `missing` record on
one ordering and keeps it on the other: when two candidates share the
artist|title key, which one pass 1 consumes depends on candidate order, and
the leftover differs in its filename key. -/
theorem match_candidate_order_claim_false :
    ([mRec 12 "k" "t" (some "f2"), mRec 11 "k" "t" (some "f1")]
        ~ [mRec 11 "k" "t" (some "f1"), mRec 12 "k" "t" (some "f2")]) ∧
    (matchRecs [mRec 1 "k" "t" none, mRec 2 "x" "y" (some "f1")]
      [mRec 11 "k" "t" (some "f1"), mRec 12 "k" "t" (some "f2")] true).2.1 = [] ∧
    (matchRecs [mRec 1 "k" "t" none, mRec 2 "x" "y" (some "f1")]
      [mRec 12 "k" "t" (some "f2"), mRec 11 "k" "t" (some "f1")] true).2.1
      = [mRec 2 "x" "y" (some "f1")] := by decide

/-- C7 (amended): for every base sequence and every permutation of the
candidate sequence, provided the candidates' artist|title keys are pairwise
distinct and their nonempty filename keys and nonempty title keys are each
pairwise distinct, `_match` returns the same matched (base, candidate) pairs
(equal lists), the same missing records (equal lists), and the same extra
records up to candidate order (a permutation); without the distinct-key
hypotheses the result can depend on the candidate order. -/
theorem match_candidate_order_invariant (base cand cand2 : List Rec) (tf : Bool)
    (hperm : cand2 ~ cand)
    (hk1 : (cand.map pass1Key).Nodup)
    (hk2 : ((cand.map pass2Key).filter (fun s => !decide (s = ""))).Nodup)
    (hk3 : ((cand.map (fun r => r.title_norm)).filter
        (fun s => !decide (s = ""))).Nodup) :
    (matchRecs base cand2 tf).1 = (matchRecs base cand tf).1 ∧
    (matchRecs base cand2 tf).2.1 = (matchRecs base cand tf).2.1 ∧
    (matchRecs base cand2 tf).2.2 ~ (matchRecs base cand tf).2.2 := by
  have hk1f : ((cand.map pass1Key).filter (fun s => !decide (s = ""))).Nodup :=
    hk1.filter _
  rcases matchIdx_compare base cand cand2 tf hperm hk1f hk2 hk3 with ⟨hub, hm, hu⟩
  refine ⟨?_, ?_, ?_⟩
  · have e1 : (matchRecs base cand tf).1
        = ((matchIdx base cand tf).matches_idx.map
            (fun ij => (ij.1, recOf cand ij.2))).map
          (fun ir => (base.getD ir.1 default, ir.2)) := by
      show (matchIdx base cand tf).matches_idx.map
          (fun ij => (base.getD ij.1 default, cand.getD ij.2 default)) = _
      rw [List.map_map]
      exact List.map_congr_left (fun x _ => rfl)
    have e2 : (matchRecs base cand2 tf).1
        = ((matchIdx base cand2 tf).matches_idx.map
            (fun ij => (ij.1, recOf cand2 ij.2))).map
          (fun ir => (base.getD ir.1 default, ir.2)) := by
      show (matchIdx base cand2 tf).matches_idx.map
          (fun ij => (base.getD ij.1 default, cand2.getD ij.2 default)) = _
      rw [List.map_map]
      exact List.map_congr_left (fun x _ => rfl)
    rw [e1, e2, hm]
  · show (List.range base.length).filterMap
        (fun i => if (matchIdx base cand2 tf).used_b.getD i false then none
                  else some (base.getD i default))
      = (List.range base.length).filterMap
        (fun i => if (matchIdx base cand tf).used_b.getD i false then none
                  else some (base.getD i default))
    rw [hub]
  · rw [extra_eq_unusedRecs, extra_eq_unusedRecs]
    exact hu.symm

theorem match_candidate_order_invariant_witness :
    (([mRec 12 "b" "u" (some "f2"), mRec 11 "a" "t" (some "f1")]
        ~ [mRec 11 "a" "t" (some "f1"), mRec 12 "b" "u" (some "f2")]) ∧
      (([mRec 11 "a" "t" (some "f1"), mRec 12 "b" "u" (some "f2")].map pass1Key).Nodup) ∧
      ((([mRec 11 "a" "t" (some "f1"), mRec 12 "b" "u" (some "f2")].map pass2Key).filter
          (fun s => !decide (s = ""))).Nodup) ∧
      ((([mRec 11 "a" "t" (some "f1"), mRec 12 "b" "u" (some "f2")].map
          (fun r => r.title_norm)).filter (fun s => !decide (s = ""))).Nodup)) ∧
    ((matchRecs [mRec 1 "a" "t" none]
        [mRec 12 "b" "u" (some "f2"), mRec 11 "a" "t" (some "f1")] true).1
      = (matchRecs [mRec 1 "a" "t" none]
        [mRec 11 "a" "t" (some "f1"), mRec 12 "b" "u" (some "f2")] true).1 ∧
    (matchRecs [mRec 1 "a" "t" none]
        [mRec 12 "b" "u" (some "f2"), mRec 11 "a" "t" (some "f1")] true).2.1
      = (matchRecs [mRec 1 "a" "t" none]
        [mRec 11 "a" "t" (some "f1"), mRec 12 "b" "u" (some "f2")] true).2.1 ∧
    (matchRecs [mRec 1 "a" "t" none]
        [mRec 12 "b" "u" (some "f2"), mRec 11 "a" "t" (some "f1")] true).2.2
      ~ (matchRecs [mRec 1 "a" "t" none]
        [mRec 11 "a" "t" (some "f1"), mRec 12 "b" "u" (some "f2")] true).2.2) :=
  ⟨⟨by decide, by decide, by decide, by decide⟩,
   match_candidate_order_invariant [mRec 1 "a" "t" none]
     [mRec 11 "a" "t" (some "f1"), mRec 12 "b" "u" (some "f2")]
     [mRec 12 "b" "u" (some "f2"), mRec 11 "a" "t" (some "f1")] true
     (by decide) (by decide) (by decide) (by decide)⟩

/-! ### Hot-cue write-back (apply-hotcues staging) -/

/-- A `DjmdCue` row as the hot-cue sync stage sees it: its id, owning
content id, whether it is a memory cue, and the remaining copied columns
abstracted into one payload field. Modelled from the spec: the cue table
lives in the external database library. -/
structure Cue where
  id : Nat
  contentID : Nat
  isMemory : Bool
  payload : Nat
deriving Repr, DecidableEq

/-- Modelled from the spec: the cue table as a list of rows — `get_cue`
filters by content id, `delete` removes a row, `add` appends one. -/
abbrev CueDB : Type := List Cue

/-- `_delete_existing_hot_cues(db, content_id)` (lines 222-231): delete the
content's non-memory cues, returning the new table and the deletion count. -/
def deleteExistingHotCues (db : CueDB) (cid : Nat) : CueDB × Nat :=
  (db.filter (fun cue => !(decide (cue.contentID = cid) && !cue.isMemory)),
   (db.filter (fun cue => decide (cue.contentID = cid) && !cue.isMemory)).length)

/-- The creation loop of `_clone_hot_cues_from_base_to_cand` (lines 238-250):
one fresh-id copy per source cue, owned by the candidate content, every other
column carried over; `freshId n` models `generate_unused_id` at the n-th
creation. -/
def cloneCues (freshId : Nat → Nat) (cand_cid : Nat) : Nat → List Cue → List Cue
  | _, [] => []
  | n, cue :: rest =>
      { id := freshId n, contentID := cand_cid, isMemory := cue.isMemory,
        payload := cue.payload } :: cloneCues freshId cand_cid (n + 1) rest

/-- `_clone_hot_cues_from_base_to_cand(db, base_content_id, cand_content_id)`
(lines 234-251): delete the candidate content's non-memory cues, then append
a copy of each of the base content's non-memory cues (queried after the
deletion), returning the new table with the deleted and created counts. -/
def cloneHotCuesFromBaseToCand (freshId : Nat → Nat) (db : CueDB)
    (base_cid cand_cid : Nat) : CueDB × Nat × Nat :=
  let del := deleteExistingHotCues db cand_cid
  let src := del.1.filter (fun cue => decide (cue.contentID = base_cid) && !cue.isMemory)
  (del.1 ++ cloneCues freshId cand_cid 0 src, del.2, src.length)

/-- The staging work list (lines 462-467): count-mismatch pairs then
placement-mismatch pairs, each kept only when the base record has at least
one hot cue. -/
def toFix (count_mm : List (Rec × Rec))
    (placement_mm : List (Rec × Rec × List Int × List Int)) :
    List (Rec × Rec × String) :=
  (count_mm.filter (fun bc => decide (0 < bc.1.hot_cues))).map
      (fun bc => (bc.1, bc.2, "count"))
    ++ (placement_mm.filter (fun q => decide (0 < q.1.hot_cues))).map
      (fun q => (q.1, q.2.1, "placement"))

/-- State of the staging batch: the cue table, the number of staged
creations, and the recorded failure messages (by base label). -/
structure BatchState where
  db : CueDB
  staged : Nat
  failures : List String
deriving Repr, DecidableEq

/-- A successful staging of one pair: clone base → candidate on the current
table and add the created count to the staged total. -/
def pureCloneStep (freshId : Nat → Nat) (p : CueDB × Nat)
    (item : Rec × Rec × String) : CueDB × Nat :=
  ((cloneHotCuesFromBaseToCand (fun n => freshId (p.2 + n)) p.1
      item.1.content_id item.2.1.content_id).1,
   p.2 + (cloneHotCuesFromBaseToCand (fun n => freshId (p.2 + n)) p.1
      item.1.content_id item.2.1.content_id).2.2)

/-- One iteration of the staging loop (lines 470-480): try the clone; a
failure (the oracle `fails`, standing for the exceptions the external
database layer may raise) records the pair's base label and leaves the
table untouched; either way the loop moves on to the next pair. -/
def stageStep (freshId : Nat → Nat) (fails : Rec × Rec → Bool)
    (st : BatchState) (item : Rec × Rec × String) : BatchState :=
  if fails (item.1, item.2.1) then
    { db := st.db, staged := st.staged, failures := st.failures ++ [item.1.label] }
  else
    { db := (pureCloneStep freshId (st.db, st.staged) item).1
      staged := (pureCloneStep freshId (st.db, st.staged) item).2
      failures := st.failures }

/-- A record flagged for hot-cue comparison, with the given content id,
label and hot-cue count. -/
def hcRec (cid : Nat) (lbl : String) (n : Nat) : Rec :=
  { content_id := cid, song_pl_id := "", artist_norm := "", title_norm := "",
    fb_norm := none, label := lbl, track_no := 0, hot_cues := n, hot_cue_ms := [] }

theorem stageStep_eq (freshId : Nat → Nat) (fails : Rec × Rec → Bool)
    (st : BatchState) (item : Rec × Rec × String) :
    stageStep freshId fails st item =
      if fails (item.1, item.2.1) then
        { db := st.db, staged := st.staged, failures := st.failures ++ [item.1.label] }
      else
        { db := (pureCloneStep freshId (st.db, st.staged) item).1
          staged := (pureCloneStep freshId (st.db, st.staged) item).2
          failures := st.failures } := rfl

theorem cloneCues_payload (freshId : Nat → Nat) (cid : Nat) :
    ∀ (n : Nat) (src : List Cue),
      (cloneCues freshId cid n src).map (fun cue => cue.payload)
        = src.map (fun cue => cue.payload) := by
  intro n src
  induction src generalizing n with
  | nil => rfl
  | cons cue rest ih => simp [cloneCues, ih]

theorem cloneCues_mem (freshId : Nat → Nat) (cid : Nat) :
    ∀ (n : Nat) (src : List Cue) (c : Cue), c ∈ cloneCues freshId cid n src →
      c.contentID = cid ∧ ∃ s ∈ src, c.isMemory = s.isMemory := by
  intro n src
  induction src generalizing n with
  | nil =>
    intro c hc
    exact absurd hc (by simp [cloneCues])
  | cons cue rest ih =>
    intro c hc
    simp only [cloneCues, List.mem_cons] at hc
    rcases hc with h | h
    · rw [h]
      exact ⟨rfl, cue, by simp, rfl⟩
    · rcases ih (n + 1) c h with ⟨h1, s, hs, h2⟩
      exact ⟨h1, s, List.mem_cons_of_mem _ hs, h2⟩

/-- With distinct base and candidate contents, deleting the candidate's
cues does not touch the base content's source cues. -/
theorem clone_src_eq (db : CueDB) (bcid ccid : Nat) (hne : ¬ bcid = ccid) :
    (db.filter (fun cue => !(decide (cue.contentID = ccid) && !cue.isMemory))).filter
        (fun cue => decide (cue.contentID = bcid) && !cue.isMemory)
      = db.filter (fun cue => decide (cue.contentID = bcid) && !cue.isMemory) := by
  rw [List.filter_filter]
  apply List.filter_congr
  intro cue _
  by_cases hb : (decide (cue.contentID = bcid) && !cue.isMemory) = true
  · rw [hb]
    have h1 : cue.contentID = bcid := by
      have h := hb
      simp only [Bool.and_eq_true, decide_eq_true_eq] at h
      exact h.1
    have h2 : (!(decide (cue.contentID = ccid) && !cue.isMemory)) = true := by
      have hcc : decide (cue.contentID = ccid) = false := by
        rw [h1]
        simpa using hne
      rw [hcc]
      simp
    rw [h2]
    rfl
  · have hb' : (decide (cue.contentID = bcid) && !cue.isMemory) = false :=
      Bool.of_not_eq_true hb
    rw [hb']
    simp

/-- The clone operation, characterized: the candidate content's non-memory
markers afterwards are copies of the base content's non-memory markers,
everything else is untouched, and the counts are the numbers of deleted and
created markers. -/
theorem cloneHotCues_spec (freshId : Nat → Nat) (db : CueDB) (bcid ccid : Nat)
    (hne : ¬ bcid = ccid) :
    ((cloneHotCuesFromBaseToCand freshId db bcid ccid).1.filter
        (fun cue => decide (cue.contentID = ccid) && !cue.isMemory)).map
        (fun cue => cue.payload)
      = (db.filter (fun cue => decide (cue.contentID = bcid) && !cue.isMemory)).map
        (fun cue => cue.payload) ∧
    (cloneHotCuesFromBaseToCand freshId db bcid ccid).1.filter
        (fun cue => !(decide (cue.contentID = ccid) && !cue.isMemory))
      = db.filter (fun cue => !(decide (cue.contentID = ccid) && !cue.isMemory)) ∧
    (cloneHotCuesFromBaseToCand freshId db bcid ccid).2.1
      = (db.filter (fun cue => decide (cue.contentID = ccid) && !cue.isMemory)).length ∧
    (cloneHotCuesFromBaseToCand freshId db bcid ccid).2.2
      = (db.filter (fun cue => decide (cue.contentID = bcid) && !cue.isMemory)).length := by
  have hres : cloneHotCuesFromBaseToCand freshId db bcid ccid
      = (db.filter (fun cue => !(decide (cue.contentID = ccid) && !cue.isMemory))
          ++ cloneCues freshId ccid 0
            (db.filter (fun cue => decide (cue.contentID = bcid) && !cue.isMemory)),
         (db.filter (fun cue => decide (cue.contentID = ccid) && !cue.isMemory)).length,
         (db.filter (fun cue => decide (cue.contentID = bcid) && !cue.isMemory)).length) := by
    simp only [cloneHotCuesFromBaseToCand, deleteExistingHotCues]
    rw [clone_src_eq db bcid ccid hne]
  have hclonemem : ∀ c ∈ cloneCues freshId ccid 0
      (db.filter (fun cue => decide (cue.contentID = bcid) && !cue.isMemory)),
      (decide (c.contentID = ccid) && !c.isMemory) = true := by
    intro c hc
    rcases cloneCues_mem freshId ccid 0 _ c hc with ⟨h1, s, hs, h2⟩
    have hsm : s.isMemory = false := by
      have hsP := (List.mem_filter.mp hs).2
      simp only [Bool.and_eq_true, decide_eq_true_eq] at hsP
      simpa using hsP.2
    rw [h1, h2, hsm]
    simp
  have hdel_self : (db.filter (fun cue => !(decide (cue.contentID = ccid) && !cue.isMemory))).filter
      (fun cue => !(decide (cue.contentID = ccid) && !cue.isMemory))
      = db.filter (fun cue => !(decide (cue.contentID = ccid) && !cue.isMemory)) := by
    rw [List.filter_filter]
    apply List.filter_congr
    intro cue _
    rw [Bool.and_self]
  have hdel_none : (db.filter (fun cue => !(decide (cue.contentID = ccid) && !cue.isMemory))).filter
      (fun cue => decide (cue.contentID = ccid) && !cue.isMemory) = [] := by
    rw [List.filter_filter]
    apply List.filter_eq_nil_iff.mpr
    intro cue _
    by_cases hc : (decide (cue.contentID = ccid) && !cue.isMemory) = true
    · simp [hc]
    · simp [Bool.of_not_eq_true hc]
  have hclone_all : (cloneCues freshId ccid 0
      (db.filter (fun cue => decide (cue.contentID = bcid) && !cue.isMemory))).filter
      (fun cue => decide (cue.contentID = ccid) && !cue.isMemory)
      = cloneCues freshId ccid 0
        (db.filter (fun cue => decide (cue.contentID = bcid) && !cue.isMemory)) :=
    List.filter_eq_self.mpr hclonemem
  have hclone_none : (cloneCues freshId ccid 0
      (db.filter (fun cue => decide (cue.contentID = bcid) && !cue.isMemory))).filter
      (fun cue => !(decide (cue.contentID = ccid) && !cue.isMemory)) = [] := by
    apply List.filter_eq_nil_iff.mpr
    intro c hc
    rw [hclonemem c hc]
    simp
  refine ⟨?_, ?_, ?_, ?_⟩
  · rw [hres]
    dsimp only
    rw [List.filter_append, hdel_none, hclone_all, List.nil_append, cloneCues_payload]
  · rw [hres]
    dsimp only
    rw [List.filter_append, hdel_self, hclone_none, List.append_nil]
  · rw [hres]
  · rw [hres]

/-- Folding the staging loop never aborts: the failing pairs contribute
exactly their failure records, and the surviving pairs are cloned exactly as
if the failing ones had not been in the batch. -/
theorem stage_batch (freshId : Nat → Nat) (fails : Rec × Rec → Bool) :
    ∀ (items : List (Rec × Rec × String)) (st : BatchState),
      (items.foldl (stageStep freshId fails) st).db
          = ((items.filter (fun it => !fails (it.1, it.2.1))).foldl
              (pureCloneStep freshId) (st.db, st.staged)).1 ∧
      (items.foldl (stageStep freshId fails) st).staged
          = ((items.filter (fun it => !fails (it.1, it.2.1))).foldl
              (pureCloneStep freshId) (st.db, st.staged)).2 ∧
      (items.foldl (stageStep freshId fails) st).failures
          = st.failures ++ (items.filter (fun it => fails (it.1, it.2.1))).map
              (fun it => it.1.label) := by
  intro items
  induction items with
  | nil =>
    intro st
    exact ⟨rfl, rfl, by simp⟩
  | cons it items ih =>
    intro st
    by_cases hf : fails (it.1, it.2.1) = true
    · have hstep : stageStep freshId fails st it
          = { db := st.db, staged := st.staged,
              failures := st.failures ++ [it.1.label] } := by
        rw [stageStep_eq, if_pos hf]
      have hfil1 : (it :: items).filter (fun it2 => !fails (it2.1, it2.2.1))
          = items.filter (fun it2 => !fails (it2.1, it2.2.1)) := by
        rw [List.filter_cons]
        simp [hf]
      have hfil2 : (it :: items).filter (fun it2 => fails (it2.1, it2.2.1))
          = it :: items.filter (fun it2 => fails (it2.1, it2.2.1)) := by
        rw [List.filter_cons]
        simp [hf]
      rw [List.foldl_cons, hstep, hfil1, hfil2]
      have hih := ih ⟨st.db, st.staged, st.failures ++ [it.1.label]⟩
      rcases hih with ⟨h1, h2, h3⟩
      refine ⟨h1, h2, ?_⟩
      rw [h3, List.map_cons]
      simp
    · have hf' : fails (it.1, it.2.1) = false := Bool.of_not_eq_true hf
      have hstep : stageStep freshId fails st it
          = { db := (pureCloneStep freshId (st.db, st.staged) it).1
              staged := (pureCloneStep freshId (st.db, st.staged) it).2
              failures := st.failures } := by
        rw [stageStep_eq, if_neg hf]
      have hfil1 : (it :: items).filter (fun it2 => !fails (it2.1, it2.2.1))
          = it :: items.filter (fun it2 => !fails (it2.1, it2.2.1)) := by
        rw [List.filter_cons]
        simp [hf']
      have hfil2 : (it :: items).filter (fun it2 => fails (it2.1, it2.2.1))
          = items.filter (fun it2 => fails (it2.1, it2.2.1)) := by
        rw [List.filter_cons]
        simp [hf']
      rw [List.foldl_cons, hstep, hfil1, hfil2, List.foldl_cons]
      have hih := ih ⟨(pureCloneStep freshId (st.db, st.staged) it).1,
        (pureCloneStep freshId (st.db, st.staged) it).2, st.failures⟩
      rcases hih with ⟨h1, h2, h3⟩
      exact ⟨h1, h2, h3⟩

/-- C6: counterexample — a pair flagged as a hot-cue count mismatch whose
base record has no hot cues (here the candidate has two, so the counts
differ and the pair is flagged) is never staged: the staging work list is
empty, so the marker-clone operation is not invoked for it. -/
theorem hotcue_stage_claim_false :
    ¬ (hcRec 1 "x" 0).hot_cues = (hcRec 2 "y" 2).hot_cues ∧
    toFix [(hcRec 1 "x" 0, hcRec 2 "y" 2)] [] = [] := by decide

/-- C6 (amended): the hot-cue sync stage stages exactly the flagged pairs
whose base record has at least one hot cue — every count- or
placement-mismatch pair with a positive base hot-cue count enters the work
list, and a pair whose base has no hot cues never does; for distinct base
and candidate contents the clone operation replaces the candidate content's
non-memory markers by copies of the base content's non-memory markers,
leaves every other row unchanged, and counts the deleted and created
markers; and a recorded failure for one pair leaves the processing of every
other pair in the batch unchanged. -/
theorem hotcue_stage_amended (count_mm : List (Rec × Rec))
    (placement_mm : List (Rec × Rec × List Int × List Int))
    (freshId : Nat → Nat) (fails : Rec × Rec → Bool) :
    (∀ b c, (b, c) ∈ count_mm → 0 < b.hot_cues →
      (b, c, "count") ∈ toFix count_mm placement_mm) ∧
    (∀ q ∈ placement_mm, 0 < q.1.hot_cues →
      (q.1, q.2.1, "placement") ∈ toFix count_mm placement_mm) ∧
    (∀ b c, b.hot_cues = 0 → (b, c, "count") ∉ toFix count_mm placement_mm) ∧
    (∀ (db : CueDB) (bcid ccid : Nat), ¬ bcid = ccid →
      ((cloneHotCuesFromBaseToCand freshId db bcid ccid).1.filter
          (fun cue => decide (cue.contentID = ccid) && !cue.isMemory)).map
          (fun cue => cue.payload)
        = (db.filter (fun cue => decide (cue.contentID = bcid) && !cue.isMemory)).map
          (fun cue => cue.payload) ∧
      (cloneHotCuesFromBaseToCand freshId db bcid ccid).1.filter
          (fun cue => !(decide (cue.contentID = ccid) && !cue.isMemory))
        = db.filter (fun cue => !(decide (cue.contentID = ccid) && !cue.isMemory)) ∧
      (cloneHotCuesFromBaseToCand freshId db bcid ccid).2.1
        = (db.filter (fun cue => decide (cue.contentID = ccid) && !cue.isMemory)).length ∧
      (cloneHotCuesFromBaseToCand freshId db bcid ccid).2.2
        = (db.filter
            (fun cue => decide (cue.contentID = bcid) && !cue.isMemory)).length) ∧
    (∀ (items : List (Rec × Rec × String)) (st : BatchState),
      (items.foldl (stageStep freshId fails) st).db
          = ((items.filter (fun it => !fails (it.1, it.2.1))).foldl
              (pureCloneStep freshId) (st.db, st.staged)).1 ∧
      (items.foldl (stageStep freshId fails) st).staged
          = ((items.filter (fun it => !fails (it.1, it.2.1))).foldl
              (pureCloneStep freshId) (st.db, st.staged)).2 ∧
      (items.foldl (stageStep freshId fails) st).failures
          = st.failures ++ (items.filter (fun it => fails (it.1, it.2.1))).map
              (fun it => it.1.label)) := by
  refine ⟨?_, ?_, ?_, ?_, stage_batch freshId fails⟩
  · intro b c hmem hpos
    apply List.mem_append_left
    apply List.mem_map.mpr
    exact ⟨(b, c), List.mem_filter.mpr ⟨hmem, by simpa using hpos⟩, rfl⟩
  · intro q hq hpos
    apply List.mem_append_right
    apply List.mem_map.mpr
    exact ⟨q, List.mem_filter.mpr ⟨hq, by simpa using hpos⟩, rfl⟩
  · intro b c h0 hmem
    rcases List.mem_append.mp hmem with h | h
    · rcases List.mem_map.mp h with ⟨bc, hbc, hEq⟩
      have hb : bc.1 = b := (Prod.ext_iff.mp hEq).1
      have hpos := (List.mem_filter.mp hbc).2
      rw [hb, h0] at hpos
      exact absurd hpos (by simp)
    · rcases List.mem_map.mp h with ⟨q, _, hEq⟩
      have hstr : ("placement" : String) = "count" :=
        (Prod.ext_iff.mp (Prod.ext_iff.mp hEq).2).2
      exact absurd hstr (by decide)
  · intro db bcid ccid hne
    exact cloneHotCues_spec freshId db bcid ccid hne

end CdjCompare
